import Mathlib

/-!
Verification development for the `measureme` event-tracing library
(serialization sinks, paged writers, and the string table).

The Rust sources are shallowly embedded: byte buffers become `List Nat`
(every element a byte value `< 256` by construction), machine integers
become `Nat` with an explicit `% 2^32` where the code casts to `u32` or
relies on wrapping, panics become `Option`/dedicated result constructors,
and the possibly non-terminating reader loop takes an explicit fuel
argument.
-/

namespace Measureme

/-! ## Byte-level helpers -/

/-- `byteorder::LittleEndian::write_u32`: the four little-endian bytes of a
`u32` value (the per-byte `% 256` makes the `u32` truncation explicit). -/
def le4 (n : Nat) : List Nat :=
  [n % 256, n / 256 % 256, n / 65536 % 256, n / 16777216 % 256]

/-- `u32::to_be_bytes`: the four big-endian bytes of a `u32` value. -/
def be4 (n : Nat) : List Nat :=
  [n / 16777216 % 256, n / 65536 % 256, n / 256 % 256, n % 256]

/-- `byteorder::LittleEndian::read_u32` on `data[pos..pos + 4]`; `none`
models the slice-bounds panic. -/
def readU32LE (data : List Nat) (pos : Nat) : Option Nat :=
  match data[pos]?, data[pos + 1]?, data[pos + 2]?, data[pos + 3]? with
  | some b0, some b1, some b2, some b3 =>
      some (b0 + 256 * b1 + 65536 * b2 + 16777216 * b3)
  | _, _, _, _ => none

/-- Overwrite `l[pos .. pos + bytes.length]` with `bytes` (the effect of a
Rust `copy_from_slice` into that sub-slice). -/
def setSlice (l : List Nat) (pos : Nat) (bytes : List Nat) : List Nat :=
  l.take pos ++ bytes ++ l.drop (pos + bytes.length)

/-! ## UTF-8 encoding (`str::as_bytes`, per character) -/

/-- The UTF-8 bytes of one character, exactly as `str::as_bytes` lays a
`char` out in a Rust string. -/
def utf8EncodeChar (c : Char) : List Nat :=
  let v := c.toNat
  if v < 0x80 then [v]
  else if v < 0x800 then
    [0xC0 ||| (v >>> 6), 0x80 ||| (v &&& 0x3F)]
  else if v < 0x10000 then
    [0xE0 ||| (v >>> 12), 0x80 ||| ((v >>> 6) &&& 0x3F), 0x80 ||| (v &&& 0x3F)]
  else
    [0xF0 ||| (v >>> 18), 0x80 ||| ((v >>> 12) &&& 0x3F),
     0x80 ||| ((v >>> 6) &&& 0x3F), 0x80 ||| (v &&& 0x3F)]

/-- The UTF-8 bytes of a character sequence (`str::as_bytes`). -/
def utf8Str (cs : List Char) : List Nat :=
  (cs.map utf8EncodeChar).flatten

/-! ## `decode_utf8_char` (stringtable.rs) -/

/-- Result of `decode_utf8_char`: a decoded scalar with its byte length,
the `None` return (first byte is not a handled UTF-8 leader), or a panic
(out-of-bounds index or `char::try_from` failure). -/
inductive DecodeRes where
  | chr (c : Char) (len : Nat)
  | notUtf8
  | panicked
deriving DecidableEq

/-- `char::try_from(codepoint)` followed by `Some((c, len))`; an invalid
codepoint hits the `panic!` branch. -/
def mkDecoded (codepoint len : Nat) : DecodeRes :=
  if _h : codepoint.isValidChar then .chr (Char.ofNat codepoint) len else .panicked

/-- `decode_utf8_char` from stringtable.rs, including its exact bit tests
and masks (note the 3-byte branch reuses the `0x1F` mask of the
source). -/
def decode_utf8_char (bytes : List Nat) : DecodeRes :=
  match bytes[0]? with
  | none => .panicked
  | some first_byte =>
    if first_byte &&& 0x80 = 0 then
      mkDecoded first_byte 1
    else if first_byte &&& 0xE0 = 0xC0 then
      match bytes[1]? with
      | none => .panicked
      | some b1 =>
        let bits0 := first_byte &&& 0x1F
        let bits1 := b1 &&& 0x3F
        mkDecoded ((bits0 <<< 6) ||| bits1) 2
    else if first_byte &&& 0xF0 = 0xE0 then
      match bytes[1]?, bytes[2]? with
      | some b1, some b2 =>
        let bits0 := first_byte &&& 0x1F
        let bits1 := b1 &&& 0x3F
        let bits2 := b2 &&& 0x3F
        mkDecoded ((bits0 <<< 12) ||| (bits1 <<< 6) ||| bits2) 3
      | _, _ => .panicked
    else
      .notUtf8

/-! ## String table constants (stringtable.rs) -/

def TERMINATOR : Nat := 0xFF
def UTF8_CONTINUATION_MASK : Nat := 0xC0
def UTF8_CONTINUATION_BYTE : Nat := 0x80
def MAX_STRING_ID : Nat := 0x3FFFFFFF
def STRING_ID_MASK : Nat := 0x3FFFFFFF
def MAX_PRE_RESERVED_STRING_ID : Nat := MAX_STRING_ID / 2
def METADATA_STRING_ID : Nat := MAX_PRE_RESERVED_STRING_ID + 1

/-! ## File headers

`file_header.rs` is declared by `lib.rs` but is not among the sources, so
the header codec is modelled from the spec (§4.B, §6): every stream begins
with a 4-byte ASCII magic followed by the 4-byte little-endian format
version, currently 7; the reader fails if the magic is wrong. -/

def CURRENT_FILE_FORMAT_VERSION : Nat := 7

/-- ASCII bytes of the magic "MMSD" (string table data). -/
def FILE_MAGIC_STRINGTABLE_DATA : List Nat := [0x4D, 0x4D, 0x53, 0x44]

/-- ASCII bytes of the magic "MMSI" (string table index). -/
def FILE_MAGIC_STRINGTABLE_INDEX : List Nat := [0x4D, 0x4D, 0x53, 0x49]

/-- Modelled from the spec: `write_file_header` writes `MAGIC[4]`
followed by `CURRENT_FILE_FORMAT_VERSION` as a little-endian `u32`. -/
def write_file_header (magic : List Nat) : List Nat :=
  magic ++ le4 CURRENT_FILE_FORMAT_VERSION

/-- Modelled from the spec: `read_file_header` checks the 4-byte magic and
returns the version read from bytes 4..8; wrong magic (or a stream too
short to hold the header) is a version-mismatch error. -/
def read_file_header (data : List Nat) (magic : List Nat) : Except String Nat :=
  if data.take 4 = magic then
    match readU32LE data 4 with
    | some v => .ok v
    | none => .error "truncated file header"
  else .error "VersionMismatch"

/-- Modelled from the spec: `strip_file_header` skips the 8 header bytes. -/
def strip_file_header (data : List Nat) : List Nat :=
  data.drop 8

/-! ## `SerializableString` (stringtable.rs) -/

/-- `StringComponent`: inline string content or a reference to another
entry. -/
inductive StringComponent where
  | value (s : String)
  | ref (id : Nat)
deriving DecidableEq

/-- `StringComponent::serialize`: a `Value` copies its UTF-8 bytes, a
`Ref` writes the id as a little-endian `u32`. -/
def StringComponent.serialize : StringComponent → List Nat
  | .value s => utf8Str s.data
  | .ref id => le4 id

/-- The two `SerializableString` shapes used by the crate: a plain `str`
and a component list. -/
inductive SerializableString where
  | str (s : String)
  | comps (cs : List StringComponent)
deriving DecidableEq

/-- `SerializableString::serialize`: content bytes followed by the
`TERMINATOR` byte; the buffer handed to `serialize` has exactly
`serialized_size` bytes, so concatenation captures the slice writes. -/
def SerializableString.serialize : SerializableString → List Nat
  | .str s => utf8Str s.data ++ [TERMINATOR]
  | .comps cs => (cs.map StringComponent.serialize).flatten ++ [TERMINATOR]

/-! ## `ByteVecSink` (serialization.rs) -/

/-- `ByteVecSink::write_atomic`: append at the tail, return the old length
as the address (the `start as u32` cast becomes `% 2^32`). The `write`
closure must fill the fresh `num_bytes`-byte slice exactly, so it is
modelled by the byte list it produces. -/
def ByteVecSink.write_atomic (data : List Nat) (bytes : List Nat) :
    Nat × List Nat :=
  (data.length % 2 ^ 32, data ++ bytes)

/-! ## `StringTableBuilder` (stringtable.rs) -/

structure StringTableBuilder where
  data_sink : List Nat
  index_sink : List Nat
  id_counter : Nat
deriving DecidableEq

/-- `StringTableBuilder::new` over a pair of fresh `ByteVecSink`s: writes
the two file headers; the id counter starts at `METADATA_STRING_ID + 1`. -/
def StringTableBuilder.new : StringTableBuilder :=
  { data_sink := write_file_header FILE_MAGIC_STRINGTABLE_DATA
    index_sink := write_file_header FILE_MAGIC_STRINGTABLE_INDEX
    id_counter := METADATA_STRING_ID + 1 }

/-- `serialize_index_entry`: one atomic 8-byte write of `(id, addr)`, both
little-endian `u32`s. -/
def serialize_index_entry (sink : List Nat) (id addr : Nat) : List Nat :=
  (ByteVecSink.write_atomic sink (le4 id ++ le4 addr)).2

/-- `StringTableBuilder::alloc_unchecked`: serialize the string into the
data sink and record `(id, addr)` in the index sink. -/
def StringTableBuilder.alloc_unchecked (b : StringTableBuilder) (id : Nat)
    (s : SerializableString) : StringTableBuilder :=
  let r := ByteVecSink.write_atomic b.data_sink s.serialize
  { b with data_sink := r.2
           index_sink := serialize_index_entry b.index_sink id r.1 }

/-- `StringTableBuilder::alloc_with_reserved_id`; `none` models the
`assert!(id.0 <= MAX_PRE_RESERVED_STRING_ID)` panic. -/
def StringTableBuilder.alloc_with_reserved_id (b : StringTableBuilder)
    (id : Nat) (s : SerializableString) : Option (Nat × StringTableBuilder) :=
  if id ≤ MAX_PRE_RESERVED_STRING_ID then some (id, b.alloc_unchecked id s)
  else none

/-- `StringTableBuilder::alloc_metadata`: always uses the fixed
`METADATA_STRING_ID`. -/
def StringTableBuilder.alloc_metadata (b : StringTableBuilder)
    (s : SerializableString) : Nat × StringTableBuilder :=
  (METADATA_STRING_ID, b.alloc_unchecked METADATA_STRING_ID s)

/-- `StringTableBuilder::alloc`: `fetch_add(1, SeqCst)` on the counter
(a `u32`, hence the `% 2^32`), then `assert_eq!(id.0, id.0 & STRING_ID_MASK)`
(`none` models that panic). -/
def StringTableBuilder.alloc (b : StringTableBuilder)
    (s : SerializableString) : Option (Nat × StringTableBuilder) :=
  let id := b.id_counter
  let b1 := { b with id_counter := (b.id_counter + 1) % 2 ^ 32 }
  if id = id &&& STRING_ID_MASK then some (id, b1.alloc_unchecked id s)
  else none

/-! ## `StringTable` reader (stringtable.rs) -/

structure StringTable where
  string_data : List Nat
  index : List (Nat × Nat)
deriving DecidableEq

/-- `FxHashMap` lookup over the collected index entries: `collect` keeps
the last entry written for a key, and a missing key panics at the caller
(hence `Option`). -/
def lookupId (index : List (Nat × Nat)) (id : Nat) : Option Nat :=
  (index.reverse.find? (fun e => e.1 == id)).map (fun e => e.2)

/-- `deserialize_index_entry`: split one 8-byte chunk into `(id, addr)`. -/
def deserialize_index_entry (bytes : List Nat) : Nat × Nat :=
  ((readU32LE bytes 0).getD 0, (readU32LE bytes 4).getD 0)

/-- `slice::chunks(8)`: consecutive 8-byte chunks, the final chunk shorter
when the length is not a multiple of 8. -/
def chunks8 : List Nat → List (List Nat)
  | b0 :: b1 :: b2 :: b3 :: b4 :: b5 :: b6 :: b7 :: rest =>
      [b0, b1, b2, b3, b4, b5, b6, b7] :: chunks8 rest
  | [] => []
  | l => [l]

/-- `StringTable::new`: read and cross-check both headers, then parse the
index. The outer `Option` models the `assert!(index_data.len() % 8 == 0)`
panic; the `Except` carries the returned errors. -/
def StringTable.new (string_data index_data : List Nat) :
    Option (Except String StringTable) :=
  match read_file_header string_data FILE_MAGIC_STRINGTABLE_DATA with
  | .error e => some (.error e)
  | .ok string_data_format =>
    match read_file_header index_data FILE_MAGIC_STRINGTABLE_INDEX with
    | .error e => some (.error e)
    | .ok index_data_format =>
      if string_data_format ≠ index_data_format then
        some (.error "Mismatch between StringTable DATA and INDEX format version")
      else if string_data_format ≠ CURRENT_FILE_FORMAT_VERSION then
        some (.error "file format version is not supported")
      else if index_data.length % 8 ≠ 0 then
        none
      else
        some (.ok
          { string_data := string_data
            index := (chunks8 (strip_file_header index_data)).map
              deserialize_index_entry })

/-! ## `StringRef::write_to_string` (stringtable.rs)

The reader walk can fail to terminate (§9 of the spec calls the missing
4-byte UTF-8 form a likely latent bug), so the outer `loop` and the
recursion into referenced entries take explicit fuel. The inner
`while let Some((c, len)) = decode_utf8_char(..)` loop advances `pos` by
at least one byte per step, so a fuel of `data.length + 1` can never be
the reason it stops; `write_to_string` passes exactly that. -/

/-- Result of the inner UTF-8 decoding loop: the position/accumulator when
`decode_utf8_char` returns `None`, a panic, or inner fuel exhaustion
(unreachable for the fuel used by `write_to_string`). -/
inductive LoopRes where
  | next (pos : Nat) (acc : List Char)
  | panicked
  | fuelOut
deriving DecidableEq

/-- The `while let Some((c, len)) = decode_utf8_char(&string_data[pos..])`
loop: push the scalar, advance by its length. -/
def utf8_loop (data : List Nat) : Nat → Nat → List Char → LoopRes
  | 0, _, _ => .fuelOut
  | fuel + 1, pos, acc =>
    match decode_utf8_char (data.drop pos) with
    | .chr c len => utf8_loop data fuel (pos + len) (acc ++ [c])
    | .notUtf8 => .next pos acc
    | .panicked => .panicked

/-- Result of `write_to_string`: the accumulated scalars at the
`TERMINATOR`, a panic (bad index / invalid codepoint), or fuel
exhaustion (the loop did not finish within `fuel` outer steps). -/
inductive WalkRes where
  | ok (acc : List Char)
  | panicked
  | fuelOut
deriving DecidableEq

/-- The body of `StringRef::write_to_string` starting from byte position
`pos`: dispatch on the current byte (terminator / string-id reference /
UTF-8 content), recursing into referenced entries via the index. -/
def write_to_string (data : List Nat) (index : List (Nat × Nat)) :
    Nat → Nat → List Char → WalkRes
  | 0, _, _ => .fuelOut
  | fuel + 1, pos, acc =>
    match data[pos]? with
    | none => .panicked
    | some byte =>
      if byte = TERMINATOR then .ok acc
      else if byte &&& UTF8_CONTINUATION_MASK = UTF8_CONTINUATION_BYTE then
        match readU32LE data pos with
        | none => .panicked
        | some id =>
          match lookupId index id with
          | none => .panicked
          | some addr =>
            match write_to_string data index fuel addr acc with
            | .ok acc2 => write_to_string data index fuel (pos + 4) acc2
            | .panicked => .panicked
            | .fuelOut => .fuelOut
      else
        match utf8_loop data (data.length + 1) pos acc with
        | .next pos2 acc2 => write_to_string data index fuel pos2 acc2
        | .panicked => .panicked
        | .fuelOut => .fuelOut

/-- `StringRef::to_string` (via `write_to_string` on an empty output
string): look the id up in the index and walk the entry. -/
def StringRef.to_string (data : List Nat) (index : List (Nat × Nat))
    (id : Nat) (fuel : Nat) : WalkRes :=
  match lookupId index id with
  | none => .panicked
  | some addr => write_to_string data index fuel addr []

/-! ## `FileSerializationSink` (file_serialization_sink.rs) -/

/-- The `Inner` state behind the mutex: the file contents written so far,
the fixed-capacity buffer, the buffer cursor and the `u32` address
counter. -/
structure FileSink where
  file : List Nat
  buffer : List Nat
  buf_pos : Nat
  addr : Nat
deriving DecidableEq

/-- `FileSerializationSink::from_path`: empty file, a zeroed 512 KiB
buffer, cursor and address at 0 (the capacity is kept as a parameter). -/
def FileSink.new (cap : Nat) : FileSink :=
  { file := [], buffer := List.replicate cap 0, buf_pos := 0, addr := 0 }

/-- `FileSerializationSink::write_atomic` (the `write` closure modelled by
the bytes it produces): fill in place when the buffer has room, otherwise
flush and either fill from offset 0 or spill a large write straight to the
file. `*addr += num_bytes as u32` wraps, hence `% 2^32`. -/
def FileSink.write_atomic (st : FileSink) (bytes : List Nat) :
    Nat × FileSink :=
  let num_bytes := bytes.length
  let curr_addr := st.addr
  let addr2 := (st.addr + num_bytes) % 2 ^ 32
  let buf_start := st.buf_pos
  let buf_end := buf_start + num_bytes
  if buf_end ≤ st.buffer.length then
    (curr_addr, { st with buffer := setSlice st.buffer buf_start bytes
                          buf_pos := buf_end
                          addr := addr2 })
  else
    let file2 := st.file ++ st.buffer.take buf_start
    if num_bytes ≤ st.buffer.length then
      (curr_addr, { file := file2
                    buffer := setSlice st.buffer 0 bytes
                    buf_pos := num_bytes
                    addr := addr2 })
    else
      (curr_addr, { file := file2 ++ bytes
                    buffer := st.buffer
                    buf_pos := 0
                    addr := addr2 })

/-- `FileSerializationSink::write_bytes_atomic`: small writes fall through
to `write_atomic`; otherwise flush whatever is buffered and write the
input directly to the file. -/
def FileSink.write_bytes_atomic (st : FileSink) (bytes : List Nat) :
    Nat × FileSink :=
  if bytes.length < 128 then st.write_atomic bytes
  else
    let curr_addr := st.addr
    let file2 := if st.buf_pos > 0 then st.file ++ st.buffer.take st.buf_pos
                 else st.file
    (curr_addr, { file := file2 ++ bytes
                  buffer := st.buffer
                  buf_pos := 0
                  addr := (st.addr + bytes.length) % 2 ^ 32 })

/-- `Drop for FileSerializationSink`: flush the remaining buffered bytes;
returns the final file contents. -/
def FileSink.dropFlush (st : FileSink) : List Nat :=
  if st.buf_pos > 0 then st.file ++ st.buffer.take st.buf_pos else st.file

/-! ## Paged sinks (paged_serialization_sink.rs / _sink2.rs) -/

def PAGE_HEADER_SIZE : Nat := 5

/-- `write_page_header`: tag byte at offset 0, payload length as a
big-endian `u32` in bytes 1..5. -/
def write_page_header (buffer : List Nat) (tag : Nat) (len : Nat) :
    List Nat :=
  setSlice buffer 0 (tag :: be4 len)

/-- The per-stream `PagedWriterInner` plus its page tag: a page-sized
buffer whose first 5 bytes are reserved for the header, the cursor and the
per-stream `u32` address counter. -/
structure PagedWriterState where
  page_tag : Nat
  buffer : List Nat
  buf_pos : Nat
  addr : Nat
deriving DecidableEq

/-- `PagedWriter::new` (both variants): zero-filled page buffer, cursor at
`PAGE_HEADER_SIZE`, address 0. -/
def PagedWriter.new (page_size : Nat) (tag : Nat) : PagedWriterState :=
  { page_tag := tag, buffer := List.replicate page_size 0
    buf_pos := PAGE_HEADER_SIZE, addr := 0 }

/-- `PagedWriter::write_atomic` of paged_serialization_sink.rs (the
background-thread variant). `none` models the
`num_bytes > page_size - PAGE_HEADER_SIZE` panic. A full page gets its
header, is swapped against a buffer from the free pool (all pool buffers
are zero: the background worker zeroes each page before returning it, and
fresh allocations are `vec![0; page_size]`), and is sent down the
channel, modelled by appending to `queue`. -/
def PagedWriter1.write_atomic (page_size : Nat) (queue : List (List Nat))
    (w : PagedWriterState) (bytes : List Nat) :
    Option (Nat × List (List Nat) × PagedWriterState) :=
  let num_bytes := bytes.length
  if num_bytes > page_size - PAGE_HEADER_SIZE then none
  else
    let flushed :=
      if w.buf_pos + num_bytes > w.buffer.length then
        (queue ++ [write_page_header w.buffer w.page_tag
                    (w.buf_pos - PAGE_HEADER_SIZE)],
         { w with buffer := List.replicate page_size 0
                  buf_pos := PAGE_HEADER_SIZE })
      else (queue, w)
    let q2 := flushed.1
    let w2 := flushed.2
    some (w2.addr, q2,
      { w2 with buffer := setSlice w2.buffer w2.buf_pos bytes
                buf_pos := w2.buf_pos + num_bytes
                addr := (w2.addr + num_bytes) % 2 ^ 32 })

/-- `Drop for PagedWriter` (background-thread variant): finalize the
current page with its header and send it down the channel. -/
def PagedWriter1.dropWriter (queue : List (List Nat))
    (w : PagedWriterState) : List (List Nat) :=
  queue ++ [write_page_header w.buffer w.page_tag
    (w.buf_pos - PAGE_HEADER_SIZE)]

/-- `Drop for PagedSerializationSinkShared`: the sentinel stops the
background thread after it has drained the channel FIFO, having written
every received page verbatim to the file, in order. -/
def PagedWriter1.dropShared (queue : List (List Nat)) : List Nat :=
  queue.flatten

/-- `PagedWriter::write_atomic` of paged_serialization_sink2.rs (the
synchronous variant). `none` models the
`assert!(num_bytes + PAGE_HEADER_SIZE <= page_size)` panic. A full page
gets its header and is written to the shared file under its mutex, then
the buffer is zeroed in place. -/
def PagedWriter2.write_atomic (page_size : Nat) (file : List Nat)
    (w : PagedWriterState) (bytes : List Nat) :
    Option (Nat × List Nat × PagedWriterState) :=
  let num_bytes := bytes.length
  if num_bytes + PAGE_HEADER_SIZE ≤ page_size then
    let flushed :=
      if w.buf_pos + num_bytes > w.buffer.length then
        (file ++ write_page_header w.buffer w.page_tag
                  (w.buf_pos - PAGE_HEADER_SIZE),
         { w with buffer := List.replicate w.buffer.length 0
                  buf_pos := PAGE_HEADER_SIZE })
      else (file, w)
    let f2 := flushed.1
    let w2 := flushed.2
    some (w2.addr, f2,
      { w2 with buffer := setSlice w2.buffer w2.buf_pos bytes
                buf_pos := w2.buf_pos + num_bytes
                addr := (w2.addr + num_bytes) % 2 ^ 32 })
  else none

/-- `Drop for PagedWriter` (synchronous variant): finalize the current
page with its header and write it to the shared file. -/
def PagedWriter2.dropWriter (file : List Nat) (w : PagedWriterState) :
    List Nat :=
  file ++ write_page_header w.buffer w.page_tag
    (w.buf_pos - PAGE_HEADER_SIZE)

/-! ## Single-threaded runs over the sinks

A run is a sequence of `write_bytes_atomic` calls (for the paged sinks,
`(writer index, bytes)` pairs; `write_bytes_atomic` is the default trait
method, i.e. `write_atomic(bytes.len(), copy_from_slice)`). Each run
returns the addresses handed out, in call order. -/

/-- Run a call sequence against the background-thread paged sink
(shared channel queue `queue`, writers `ws`); `none` propagates a panic
or an out-of-range writer index. -/
def runPaged1 (page_size : Nat) :
    List (List Nat) → List PagedWriterState → List (Nat × List Nat) →
    Option (List Nat × List (List Nat) × List PagedWriterState)
  | queue, ws, [] => some ([], queue, ws)
  | queue, ws, (i, bytes) :: ops =>
    match ws[i]? with
    | none => none
    | some w =>
      match PagedWriter1.write_atomic page_size queue w bytes with
      | none => none
      | some (a, q2, w2) =>
        match runPaged1 page_size q2 (ws.set i w2) ops with
        | none => none
        | some (addrs, q3, ws3) => some (a :: addrs, q3, ws3)

/-- Run a call sequence against the synchronous paged sink (shared file
`file`, writers `ws`). -/
def runPaged2 (page_size : Nat) :
    List Nat → List PagedWriterState → List (Nat × List Nat) →
    Option (List Nat × List Nat × List PagedWriterState)
  | file, ws, [] => some ([], file, ws)
  | file, ws, (i, bytes) :: ops =>
    match ws[i]? with
    | none => none
    | some w =>
      match PagedWriter2.write_atomic page_size file w bytes with
      | none => none
      | some (a, f2, w2) =>
        match runPaged2 page_size f2 (ws.set i w2) ops with
        | none => none
        | some (addrs, f3, ws3) => some (a :: addrs, f3, ws3)

/-- Output of a full background-thread-variant session: the run, dropping
every writer in list order, then dropping the shared state (the
background worker drains the queue into the file). -/
def pagedSession1 (page_size : Nat) (tags : List Nat)
    (ops : List (Nat × List Nat)) : Option (List Nat × List Nat) :=
  match runPaged1 page_size [] (tags.map (PagedWriter.new page_size)) ops with
  | none => none
  | some (addrs, queue, ws) =>
      some (addrs, PagedWriter1.dropShared
        (ws.foldl PagedWriter1.dropWriter queue))

/-- Output of a full synchronous-variant session: the run, then dropping
every writer in list order. -/
def pagedSession2 (page_size : Nat) (tags : List Nat)
    (ops : List (Nat × List Nat)) : Option (List Nat × List Nat) :=
  match runPaged2 page_size [] (tags.map (PagedWriter.new page_size)) ops with
  | none => none
  | some (addrs, file, ws) =>
      some (addrs, ws.foldl PagedWriter2.dropWriter file)

/-- Run a call sequence against a `ByteVecSink`
(`write_bytes_atomic` = default `write_atomic`). -/
def runByteVec : List Nat → List (List Nat) → List Nat × List Nat
  | data, [] => (data, [])
  | data, bytes :: ops =>
    let r := ByteVecSink.write_atomic data bytes
    let rest := runByteVec r.2 ops
    (rest.1, r.1 :: rest.2)

/-- A call against `FileSerializationSink`: either `write_atomic` or the
overridden bulk `write_bytes_atomic`. -/
inductive FileOp where
  | wa (bytes : List Nat)
  | wba (bytes : List Nat)
deriving DecidableEq

/-- The byte count of a `FileOp`. -/
def FileOp.size : FileOp → Nat
  | .wa bytes => bytes.length
  | .wba bytes => bytes.length

/-- Run a call sequence against a `FileSerializationSink`. -/
def runFileSink : FileSink → List FileOp → FileSink × List Nat
  | st, [] => (st, [])
  | st, op :: ops =>
    let r := match op with
             | .wa bytes => st.write_atomic bytes
             | .wba bytes => st.write_bytes_atomic bytes
    let rest := runFileSink r.2 ops
    (rest.1, r.1 :: rest.2)

/-! ## Builder operation runs (for the id-partition invariants) -/

/-- One call against a `StringTableBuilder`. -/
inductive BuilderOp where
  | opAlloc (s : SerializableString)
  | opReserved (id : Nat) (s : SerializableString)
  | opMeta (s : SerializableString)

/-- Run a call sequence against a builder, collecting the ids issued by
`alloc` and by `alloc_with_reserved_id` (in call order); `none`
propagates a panic. -/
def runBuilder : StringTableBuilder → List BuilderOp →
    Option (StringTableBuilder × List Nat × List Nat)
  | b, [] => some (b, [], [])
  | b, .opAlloc s :: ops =>
    match b.alloc s with
    | none => none
    | some (id, b2) =>
      match runBuilder b2 ops with
      | none => none
      | some (b3, allocIds, reservedIds) =>
          some (b3, id :: allocIds, reservedIds)
  | b, .opReserved id s :: ops =>
    match b.alloc_with_reserved_id id s with
    | none => none
    | some (id2, b2) =>
      match runBuilder b2 ops with
      | none => none
      | some (b3, allocIds, reservedIds) =>
          some (b3, allocIds, id2 :: reservedIds)
  | b, .opMeta s :: ops =>
    match runBuilder (b.alloc_metadata s).2 ops with
    | none => none
    | some (b3, allocIds, reservedIds) => some (b3, allocIds, reservedIds)

/-! ## Helpers for the address-accounting statements -/

/-- Total byte count of a sequence of writes. -/
def sumLens (ops : List (List Nat)) : Nat :=
  (ops.map List.length).sum

/-- Total byte count of a sequence of `FileOp`s. -/
def sumSizes (ops : List FileOp) : Nat :=
  (ops.map FileOp.size).sum

/-- Single-writer run against the synchronous paged sink, collecting the
writer state and the returned addresses. -/
def runPagedWriter2 (page_size : Nat) :
    List Nat → PagedWriterState → List (List Nat) →
    Option (PagedWriterState × List Nat)
  | _, w, [] => some (w, [])
  | file, w, bytes :: ops =>
    match PagedWriter2.write_atomic page_size file w bytes with
    | none => none
    | some (a, f2, w2) =>
      match runPagedWriter2 page_size f2 w2 ops with
      | none => none
      | some (wF, addrs) => some (wF, a :: addrs)

/-- Single-writer run against the background-thread paged sink. -/
def runPagedWriter1 (page_size : Nat) :
    List (List Nat) → PagedWriterState → List (List Nat) →
    Option (PagedWriterState × List Nat)
  | _, w, [] => some (w, [])
  | queue, w, bytes :: ops =>
    match PagedWriter1.write_atomic page_size queue w bytes with
    | none => none
    | some (a, q2, w2) =>
      match runPagedWriter1 page_size q2 w2 ops with
      | none => none
      | some (wF, addrs) => some (wF, a :: addrs)

/-! ## Well-formed string entries (for the termination claim)

A string entry, as §6 lays it out: a sequence of components — inline
UTF-8 characters in the 1–3-byte forms the reader supports, or 4-byte
little-endian references whose leading byte carries the `10xxxxxx`
continuation pattern — followed by the `TERMINATOR`. -/

/-- One component of an entry, at the byte level. -/
inductive EntryItem where
  | chVal (c : Char)
  | refId (id : Nat)

/-- The bytes of one component. -/
def EntryItem.bytes : EntryItem → List Nat
  | .chVal c => utf8EncodeChar c
  | .refId id => le4 id

/-- The pre-terminator bytes of an entry. -/
def entryBytes (items : List EntryItem) : List Nat :=
  (items.map EntryItem.bytes).flatten

/-- Side conditions on a component: a character must be in a form the
reader decodes (below `U+10000`); a reference must be a `u32` whose low
byte matches the continuation pattern, must be present in the index, and
the entry it points at must itself resolve. -/
def ItemOk (data : List Nat) (index : List (Nat × Nat)) :
    EntryItem → Prop
  | .chVal c => c.toNat < 0x10000
  | .refId id => id < 2 ^ 32 ∧ (id % 256) &&& UTF8_CONTINUATION_MASK = UTF8_CONTINUATION_BYTE ∧
      ∃ addr, lookupId index id = some addr ∧
        ∃ fuel out, write_to_string data index fuel addr [] = .ok out

/-- Push an already-accumulated prefix in front of a walk result. -/
def WalkRes.push (acc : List Char) : WalkRes → WalkRes
  | .ok out => .ok (acc ++ out)
  | .panicked => .panicked
  | .fuelOut => .fuelOut

/-- Push an already-accumulated prefix in front of an inner-loop result. -/
def LoopRes.push (acc : List Char) : LoopRes → LoopRes
  | .next pos out => .next pos (acc ++ out)
  | .panicked => .panicked
  | .fuelOut => .fuelOut

/-- The characters of the longest inline-UTF-8 prefix of an entry (the
run the reader's inner decoding loop consumes in one pass). -/
def charRun : List EntryItem → List Char
  | .chVal c :: rest => c :: charRun rest
  | _ => []

/-- What remains of an entry after its longest inline-UTF-8 prefix:
either nothing or a list starting with a reference. -/
def afterRun : List EntryItem → List EntryItem
  | .chVal _ :: rest => afterRun rest
  | items => items

/-! # Theorems -/

/-! ## List helpers -/

theorem setSlice_length (l bytes : List Nat) (pos : Nat)
    (h : pos + bytes.length ≤ l.length) :
    (setSlice l pos bytes).length = l.length := by
  simp [setSlice]; omega

theorem setSlice_take (l bytes : List Nat) (pos : Nat)
    (h : pos ≤ l.length) :
    (setSlice l pos bytes).take (pos + bytes.length) = l.take pos ++ bytes := by
  unfold setSlice
  refine List.take_left' ?_
  simp; omega

/-! ## C4: the two-page scenario -/

/-- C4: with page size 8 and page tag 42, writing `[11,22,33]` and then
`[80,70,60]` through the paged sink returns addresses 0 and 3 and, after
dropping the writer, the output past the file header is exactly
`[42,0,0,0,3,11,22,33, 42,0,0,0,3,80,70,60]`. -/
theorem c4_paged_two_pages :
    pagedSession2 8 [42] [(0, [11, 22, 33]), (0, [80, 70, 60])] =
      some ([0, 3],
        [42, 0, 0, 0, 3, 11, 22, 33, 42, 0, 0, 0, 3, 80, 70, 60]) := by
  rfl

/-! ## C2: composite entries with references -/

/-- C2 (counterexample): after allocating `"abc"` (id `0x2000_0001`),
allocating the composite `[Value "a", Ref id, Value "b"]` and resolving
the returned id does NOT yield `"a" ++ resolve(id) ++ "b" = "aabcb"`.
The reference is serialized as a little-endian `u32` whose first byte is
the id's LOW byte (`0x01`), which does not carry the `10xxxxxx`
continuation pattern the reader uses to recognize references, so the
reader decodes the four id bytes as UTF-8 characters and produces
`"a\x01\x00\x00 b"` instead. This contradicts the repository's own
`composite_string` test and the module documentation. -/
theorem c2_ref_bytes_decoded_as_utf8 :
    ∃ id1 b1 id2 b2 table,
      StringTableBuilder.new.alloc (.str "abc") = some (id1, b1) ∧
      b1.alloc (.comps [.value "a", .ref id1, .value "b"]) = some (id2, b2) ∧
      StringTable.new b2.data_sink b2.index_sink = some (.ok table) ∧
      StringRef.to_string table.string_data table.index id1 5 =
        .ok "abc".data ∧
      StringRef.to_string table.string_data table.index id2 5 =
        .ok ['a', Char.ofNat 1, Char.ofNat 0, Char.ofNat 0, ' ', 'b'] ∧
      StringRef.to_string table.string_data table.index id2 5 ≠
        .ok ("a" ++ "abc" ++ "b").data := by
  exact ⟨_, _, _, _, _, rfl, rfl, rfl, by decide, by decide, by decide⟩

/-! ## C5: the paged size assertion -/

/-- C5: on both paged variants, `write_atomic` panics exactly when the
write does not fit a page, i.e. when `num_bytes > PAGE_SIZE - 5`
(`PagedWriter1` checks `num_bytes > page_size - PAGE_HEADER_SIZE`,
`PagedWriter2` asserts `num_bytes + PAGE_HEADER_SIZE <= page_size`; for
`page_size ≥ 5` the two conditions coincide), and otherwise the call
proceeds and returns a result. -/
theorem c5_write_atomic_size_check (page_size : Nat)
    (h5 : PAGE_HEADER_SIZE ≤ page_size) (queue : List (List Nat))
    (file : List Nat) (w : PagedWriterState) (bytes : List Nat) :
    (bytes.length > page_size - PAGE_HEADER_SIZE →
      PagedWriter1.write_atomic page_size queue w bytes = none ∧
      PagedWriter2.write_atomic page_size file w bytes = none) ∧
    (bytes.length ≤ page_size - PAGE_HEADER_SIZE →
      (∃ r, PagedWriter1.write_atomic page_size queue w bytes = some r) ∧
      (∃ r, PagedWriter2.write_atomic page_size file w bytes = some r)) := by
  have h5' : PAGE_HEADER_SIZE = 5 := rfl
  constructor
  · intro h
    refine ⟨?_, ?_⟩
    · simp only [PagedWriter1.write_atomic, if_pos h]
    · have hx : ¬ (bytes.length + PAGE_HEADER_SIZE ≤ page_size) := by omega
      simp only [PagedWriter2.write_atomic, if_neg hx]
  · intro h
    refine ⟨?_, ?_⟩
    · have hx : ¬ (bytes.length > page_size - PAGE_HEADER_SIZE) := by omega
      simp only [PagedWriter1.write_atomic, if_neg hx]
      exact ⟨_, rfl⟩
    · have hx : bytes.length + PAGE_HEADER_SIZE ≤ page_size := by omega
      simp only [PagedWriter2.write_atomic, if_pos hx]
      exact ⟨_, rfl⟩

/-- C5 witness: a 4-byte write panics on an 8-byte page on both variants;
a 3-byte write proceeds on both. -/
theorem c5_write_atomic_size_check_witness :
    (PagedWriter1.write_atomic 8 [] (PagedWriter.new 8 42) [9, 9, 9, 9] =
        none ∧
      PagedWriter2.write_atomic 8 [] (PagedWriter.new 8 42) [9, 9, 9, 9] =
        none) ∧
    ((∃ r, PagedWriter1.write_atomic 8 [] (PagedWriter.new 8 42) [9, 9, 9] =
        some r) ∧
      (∃ r, PagedWriter2.write_atomic 8 [] (PagedWriter.new 8 42) [9, 9, 9] =
        some r)) :=
  ⟨(c5_write_atomic_size_check 8 (by decide) [] []
      (PagedWriter.new 8 42) [9, 9, 9, 9]).1 (by decide),
   (c5_write_atomic_size_check 8 (by decide) [] []
      (PagedWriter.new 8 42) [9, 9, 9]).2 (by decide)⟩

/-! ## C10: the bulk write path of the file sink -/

/-- C10: for at least 128 input bytes, the overridden
`FileSerializationSink::write_bytes_atomic` is observationally equivalent
to the default `write_atomic(bytes.len(), copy_from_slice)`: it returns
the same address, leaves the same address counter, and after the
drop-time flush the file holds the same byte sequence. -/
theorem c10_write_bytes_atomic_equiv (st : FileSink) (bytes : List Nat)
    (h : 128 ≤ bytes.length) :
    (st.write_bytes_atomic bytes).1 = (st.write_atomic bytes).1 ∧
    ((st.write_bytes_atomic bytes).2).dropFlush =
      ((st.write_atomic bytes).2).dropFlush ∧
    ((st.write_bytes_atomic bytes).2).addr =
      ((st.write_atomic bytes).2).addr := by
  have hnl : ¬ bytes.length < 128 := by omega
  by_cases h1 : st.buf_pos + bytes.length ≤ st.buffer.length
  · have hpos : st.buf_pos ≤ st.buffer.length := by omega
    simp only [FileSink.write_bytes_atomic, if_neg hnl, FileSink.write_atomic,
      if_pos h1]
    refine ⟨trivial, ?_, trivial⟩
    simp only [FileSink.dropFlush]
    rw [if_pos (show st.buf_pos + bytes.length > 0 by omega)]
    rw [setSlice_take _ _ _ hpos]
    by_cases h2 : st.buf_pos > 0
    · rw [if_pos h2]; simp
    · rw [if_neg h2]
      have h0 : st.buf_pos = 0 := by omega
      simp [h0]
  · by_cases h2 : bytes.length ≤ st.buffer.length
    · simp only [FileSink.write_bytes_atomic, if_neg hnl, FileSink.write_atomic,
        if_neg h1, if_pos h2]
      refine ⟨trivial, ?_, trivial⟩
      simp only [FileSink.dropFlush]
      rw [if_pos (show bytes.length > 0 by omega),
          if_pos (show st.buf_pos > 0 by omega)]
      have hs : (setSlice st.buffer 0 bytes).take (0 + bytes.length) =
          st.buffer.take 0 ++ bytes := setSlice_take _ _ _ (by omega)
      simp only [Nat.zero_add, List.take_zero, List.nil_append] at hs
      rw [hs]
      simp
    · simp only [FileSink.write_bytes_atomic, if_neg hnl, FileSink.write_atomic,
        if_neg h1, if_neg h2]
      refine ⟨trivial, ?_, trivial⟩
      simp only [FileSink.dropFlush]
      rw [if_neg (show ¬ ((0:Nat) > 0) by omega)]
      by_cases h3 : st.buf_pos > 0
      · rw [if_pos h3]; simp
      · rw [if_neg h3]
        have h0 : st.buf_pos = 0 := by omega
        simp [h0]

/-- C10 witness: a 128-byte bulk write on a small-capacity sink agrees
with the default path. -/
theorem c10_write_bytes_atomic_equiv_witness :
    ((FileSink.new 4).write_bytes_atomic (List.replicate 128 7)).1 =
      ((FileSink.new 4).write_atomic (List.replicate 128 7)).1 ∧
    (((FileSink.new 4).write_bytes_atomic (List.replicate 128 7)).2).dropFlush =
      (((FileSink.new 4).write_atomic (List.replicate 128 7)).2).dropFlush ∧
    (((FileSink.new 4).write_bytes_atomic (List.replicate 128 7)).2).addr =
      (((FileSink.new 4).write_atomic (List.replicate 128 7)).2).addr :=
  c10_write_bytes_atomic_equiv (FileSink.new 4) (List.replicate 128 7)
    (by simp)

/-! ## C8: version validation in `StringTable::new` -/

/-- C8: `StringTable::new` returns an error whenever the versions read
from the two headers differ, or agree but differ from
`CURRENT_FILE_FORMAT_VERSION`; a `StringTable` is produced only when both
headers read back exactly the current version. -/
theorem c8_version_checks (string_data index_data : List Nat) :
    (∀ vD vI,
      read_file_header string_data FILE_MAGIC_STRINGTABLE_DATA = .ok vD →
      read_file_header index_data FILE_MAGIC_STRINGTABLE_INDEX = .ok vI →
      vD ≠ vI →
      ∃ e, StringTable.new string_data index_data = some (.error e)) ∧
    (∀ vD,
      read_file_header string_data FILE_MAGIC_STRINGTABLE_DATA = .ok vD →
      read_file_header index_data FILE_MAGIC_STRINGTABLE_INDEX = .ok vD →
      vD ≠ CURRENT_FILE_FORMAT_VERSION →
      ∃ e, StringTable.new string_data index_data = some (.error e)) ∧
    (∀ t, StringTable.new string_data index_data = some (.ok t) →
      read_file_header string_data FILE_MAGIC_STRINGTABLE_DATA =
        .ok CURRENT_FILE_FORMAT_VERSION ∧
      read_file_header index_data FILE_MAGIC_STRINGTABLE_INDEX =
        .ok CURRENT_FILE_FORMAT_VERSION) := by
  refine ⟨?_, ?_, ?_⟩
  · intro vD vI hD hI hne
    unfold StringTable.new
    rw [hD, hI]
    dsimp only
    rw [if_pos hne]
    exact ⟨_, rfl⟩
  · intro vD hD hI hne
    unfold StringTable.new
    rw [hD, hI]
    dsimp only
    rw [if_neg (show ¬ vD ≠ vD by simp), if_pos hne]
    exact ⟨_, rfl⟩
  · intro t h
    unfold StringTable.new at h
    cases hD : read_file_header string_data FILE_MAGIC_STRINGTABLE_DATA with
    | error e => rw [hD] at h; simp at h
    | ok vD =>
      rw [hD] at h
      cases hI : read_file_header index_data FILE_MAGIC_STRINGTABLE_INDEX with
      | error e => rw [hI] at h; simp at h
      | ok vI =>
        rw [hI] at h
        dsimp only at h
        by_cases h1 : vD ≠ vI
        · rw [if_pos h1] at h; simp at h
        · rw [if_neg h1] at h
          by_cases h2 : vD ≠ CURRENT_FILE_FORMAT_VERSION
          · rw [if_pos h2] at h; simp at h
          · push_neg at h1 h2
            subst h1; subst h2
            exact ⟨rfl, rfl⟩

/-- C8 witness: a data stream carrying version 8 against an index stream
carrying version 7 is rejected. -/
theorem c8_version_checks_witness :
    ∃ e, StringTable.new (FILE_MAGIC_STRINGTABLE_DATA ++ le4 8)
      (FILE_MAGIC_STRINGTABLE_INDEX ++ le4 7) = some (.error e) :=
  (c8_version_checks (FILE_MAGIC_STRINGTABLE_DATA ++ le4 8)
    (FILE_MAGIC_STRINGTABLE_INDEX ++ le4 7)).1 8 7 rfl rfl (by decide)


/-! ## C3: address accounting (helper lemmas and claim) -/

theorem sumLens_take_succ (ops : List (List Nat)) (i : Nat) (bs : List Nat)
    (h : ops[i]? = some bs) :
    sumLens (ops.take (i + 1)) = sumLens (ops.take i) + bs.length := by
  induction ops generalizing i with
  | nil => simp at h
  | cons a rest ih =>
    cases i with
    | zero => simp at h; subst h; simp [sumLens]
    | succ i =>
      simp at h
      have := ih i h
      simp [sumLens] at this ⊢
      omega

theorem sumLens_take_mono (ops : List (List Nat)) (i j : Nat) (h : i ≤ j) :
    sumLens (ops.take i) ≤ sumLens (ops.take j) := by
  induction ops generalizing i j with
  | nil => simp
  | cons a rest ih =>
    cases i with
    | zero => simp [sumLens]
    | succ i =>
      cases j with
      | zero => omega
      | succ j =>
        have := ih i j (by omega)
        simp [sumLens] at this ⊢
        omega

theorem sumLens_take_le (ops : List (List Nat)) (i : Nat) :
    sumLens (ops.take i) ≤ sumLens ops := by
  by_cases h : i ≤ ops.length
  · have := sumLens_take_mono ops i ops.length h
    rwa [List.take_length] at this
  · rw [List.take_of_length_le (by omega)]

theorem bv_run_addr_formula (ops : List (List Nat)) :
    ∀ (data : List Nat) (i : Nat), i < ops.length →
      ((runByteVec data ops).2)[i]? =
        some ((data.length + sumLens (ops.take i)) % 2 ^ 32) := by
  induction ops with
  | nil => intro data i hi; simp at hi
  | cons bs rest ih =>
    intro data i hi
    cases i with
    | zero => simp [runByteVec, sumLens, ByteVecSink.write_atomic]
    | succ i =>
      simp only [runByteVec, ByteVecSink.write_atomic]
      have := ih (data ++ bs) i (by simpa using hi)
      simp only [List.getElem?_cons_succ]
      rw [this]
      simp [sumLens]
      congr 1
      omega



theorem fs_write_atomic_addr (st : FileSink) (bytes : List Nat) :
    (st.write_atomic bytes).1 = st.addr ∧
    ((st.write_atomic bytes).2).addr = (st.addr + bytes.length) % 2 ^ 32 := by
  unfold FileSink.write_atomic
  by_cases h1 : st.buf_pos + bytes.length ≤ st.buffer.length
  · simp [if_pos h1]
  · simp only [if_neg h1]
    by_cases h2 : bytes.length ≤ st.buffer.length <;> simp [h2]

theorem fs_write_bytes_atomic_addr (st : FileSink) (bytes : List Nat) :
    (st.write_bytes_atomic bytes).1 = st.addr ∧
    ((st.write_bytes_atomic bytes).2).addr =
      (st.addr + bytes.length) % 2 ^ 32 := by
  unfold FileSink.write_bytes_atomic
  by_cases h : bytes.length < 128
  · simp only [if_pos h]
    exact fs_write_atomic_addr st bytes
  · simp [if_neg h]

theorem fs_run_addr_formula (ops : List FileOp) :
    ∀ (st : FileSink), st.addr < 2 ^ 32 → ∀ (i : Nat), i < ops.length →
      ((runFileSink st ops).2)[i]? =
        some ((st.addr + sumSizes (ops.take i)) % 2 ^ 32) := by
  induction ops with
  | nil => intro st hst i hi; simp at hi
  | cons op rest ih =>
    intro st hst i hi
    cases i with
    | zero =>
      cases op with
      | wa bytes =>
        simp only [runFileSink, List.take_zero, sumSizes, List.map_nil,
          List.sum_nil, Nat.add_zero, List.getElem?_cons_zero,
          Nat.mod_eq_of_lt hst]
        exact congrArg some (fs_write_atomic_addr st bytes).1
      | wba bytes =>
        simp only [runFileSink, List.take_zero, sumSizes, List.map_nil,
          List.sum_nil, Nat.add_zero, List.getElem?_cons_zero,
          Nat.mod_eq_of_lt hst]
        exact congrArg some (fs_write_bytes_atomic_addr st bytes).1
    | succ i =>
      have hi' : i < rest.length := by simpa using hi
      cases op with
      | wa bytes =>
        have ha := (fs_write_atomic_addr st bytes).2
        simp only [runFileSink, List.getElem?_cons_succ]
        rw [ih _ (by rw [ha]; exact Nat.mod_lt _ (by norm_num)) i hi', ha]
        simp [sumSizes, FileOp.size]
        congr 1
        omega
      | wba bytes =>
        have ha := (fs_write_bytes_atomic_addr st bytes).2
        simp only [runFileSink, List.getElem?_cons_succ]
        rw [ih _ (by rw [ha]; exact Nat.mod_lt _ (by norm_num)) i hi', ha]
        simp [sumSizes, FileOp.size]
        congr 1
        omega



theorem pw2_write_atomic_addr (ps : Nat) (file : List Nat)
    (w : PagedWriterState) (bytes : List Nat) (a : Nat) (f2 : List Nat)
    (w2 : PagedWriterState)
    (h : PagedWriter2.write_atomic ps file w bytes = some (a, f2, w2)) :
    a = w.addr ∧ w2.addr = (w.addr + bytes.length) % 2 ^ 32 := by
  unfold PagedWriter2.write_atomic at h
  by_cases hfit : bytes.length + PAGE_HEADER_SIZE ≤ ps
  · rw [if_pos hfit] at h
    by_cases hflush : w.buf_pos + bytes.length > w.buffer.length
    · simp only [if_pos hflush, Option.some.injEq, Prod.mk.injEq] at h
      obtain ⟨ha, -, hw⟩ := h
      subst ha
      subst hw
      constructor <;> simp
    · simp only [if_neg hflush, Option.some.injEq, Prod.mk.injEq] at h
      obtain ⟨ha, -, hw⟩ := h
      subst ha
      subst hw
      constructor <;> simp
  · rw [if_neg hfit] at h
    exact absurd h (by simp)



theorem pw1_write_atomic_addr (ps : Nat) (queue : List (List Nat))
    (w : PagedWriterState) (bytes : List Nat) (a : Nat)
    (q2 : List (List Nat)) (w2 : PagedWriterState)
    (h : PagedWriter1.write_atomic ps queue w bytes = some (a, q2, w2)) :
    a = w.addr ∧ w2.addr = (w.addr + bytes.length) % 2 ^ 32 := by
  unfold PagedWriter1.write_atomic at h
  by_cases hbig : bytes.length > ps - PAGE_HEADER_SIZE
  · rw [if_pos hbig] at h
    exact absurd h (by simp)
  · rw [if_neg hbig] at h
    by_cases hflush : w.buf_pos + bytes.length > w.buffer.length
    · simp only [if_pos hflush, Option.some.injEq, Prod.mk.injEq] at h
      obtain ⟨ha, -, hw⟩ := h
      subst ha
      subst hw
      constructor <;> simp
    · simp only [if_neg hflush, Option.some.injEq, Prod.mk.injEq] at h
      obtain ⟨ha, -, hw⟩ := h
      subst ha
      subst hw
      constructor <;> simp

theorem paged2_run_addr_formula (ops : List (List Nat)) :
    ∀ (ps : Nat) (file : List Nat) (w : PagedWriterState),
      w.addr < 2 ^ 32 →
      ∀ wF addrs, runPagedWriter2 ps file w ops = some (wF, addrs) →
      ∀ i, i < ops.length →
        addrs[i]? = some ((w.addr + sumLens (ops.take i)) % 2 ^ 32) := by
  induction ops with
  | nil => intro ps file w hw wF addrs h i hi; simp at hi
  | cons bs rest ih =>
    intro ps file w hw wF addrs h i hi
    unfold runPagedWriter2 at h
    cases hstep : PagedWriter2.write_atomic ps file w bs with
    | none => rw [hstep] at h; simp at h
    | some r =>
      obtain ⟨a, f2, w2⟩ := r
      rw [hstep] at h
      dsimp only at h
      cases hrest : runPagedWriter2 ps f2 w2 rest with
      | none => rw [hrest] at h; simp at h
      | some rr =>
        obtain ⟨wF2, addrs2⟩ := rr
        rw [hrest] at h
        dsimp only at h
        simp only [Option.some.injEq, Prod.mk.injEq] at h
        obtain ⟨-, haddrs⟩ := h
        subst haddrs
        obtain ⟨ha, hw2⟩ := pw2_write_atomic_addr ps file w bs a f2 w2 hstep
        cases i with
        | zero =>
          subst ha
          simp [sumLens]
          omega
        | succ i =>
          have hi' : i < rest.length := by simpa using hi
          have := ih ps f2 w2 (by rw [hw2]; exact Nat.mod_lt _ (by norm_num))
            wF2 addrs2 hrest i hi'
          simp only [List.getElem?_cons_succ]
          rw [this, hw2]
          simp [sumLens]
          congr 1
          omega

theorem paged1_run_addr_formula (ops : List (List Nat)) :
    ∀ (ps : Nat) (queue : List (List Nat)) (w : PagedWriterState),
      w.addr < 2 ^ 32 →
      ∀ wF addrs, runPagedWriter1 ps queue w ops = some (wF, addrs) →
      ∀ i, i < ops.length →
        addrs[i]? = some ((w.addr + sumLens (ops.take i)) % 2 ^ 32) := by
  induction ops with
  | nil => intro ps queue w hw wF addrs h i hi; simp at hi
  | cons bs rest ih =>
    intro ps queue w hw wF addrs h i hi
    unfold runPagedWriter1 at h
    cases hstep : PagedWriter1.write_atomic ps queue w bs with
    | none => rw [hstep] at h; simp at h
    | some r =>
      obtain ⟨a, q2, w2⟩ := r
      rw [hstep] at h
      dsimp only at h
      cases hrest : runPagedWriter1 ps q2 w2 rest with
      | none => rw [hrest] at h; simp at h
      | some rr =>
        obtain ⟨wF2, addrs2⟩ := rr
        rw [hrest] at h
        dsimp only at h
        simp only [Option.some.injEq, Prod.mk.injEq] at h
        obtain ⟨-, haddrs⟩ := h
        subst haddrs
        obtain ⟨ha, hw2⟩ := pw1_write_atomic_addr ps queue w bs a q2 w2 hstep
        cases i with
        | zero =>
          subst ha
          simp [sumLens]
          omega
        | succ i =>
          have hi' : i < rest.length := by simpa using hi
          have := ih ps q2 w2 (by rw [hw2]; exact Nat.mod_lt _ (by norm_num))
            wF2 addrs2 hrest i hi'
          simp only [List.getElem?_cons_succ]
          rw [this, hw2]
          simp [sumLens]
          congr 1
          omega



theorem sumSizes_take_succ (ops : List FileOp) (i : Nat) (x : FileOp)
    (h : ops[i]? = some x) :
    sumSizes (ops.take (i + 1)) = sumSizes (ops.take i) + x.size := by
  induction ops generalizing i with
  | nil => simp at h
  | cons a rest ih =>
    cases i with
    | zero => simp at h; subst h; simp [sumSizes]
    | succ i =>
      simp at h
      have := ih i h
      simp [sumSizes] at this ⊢
      omega

theorem sumSizes_take_mono (ops : List FileOp) (i j : Nat) (h : i ≤ j) :
    sumSizes (ops.take i) ≤ sumSizes (ops.take j) := by
  induction ops generalizing i j with
  | nil => simp
  | cons a rest ih =>
    cases i with
    | zero => simp [sumSizes]
    | succ i =>
      cases j with
      | zero => omega
      | succ j =>
        have := ih i j (by omega)
        simp [sumSizes] at this ⊢
        omega

theorem sumSizes_take_le (ops : List FileOp) (i : Nat) :
    sumSizes (ops.take i) ≤ sumSizes ops := by
  by_cases h : i ≤ ops.length
  · have := sumSizes_take_mono ops i ops.length h
    rwa [List.take_length] at this
  · rw [List.take_of_length_le (by omega)]

/-- C3: on every modelled sink — `ByteVecSink`, `FileSerializationSink`
(under both `write_atomic` and the bulk `write_bytes_atomic`), and a
`PagedWriter` stream of either paged variant — the address returned for
each write equals the sum of the byte counts of all writes previously
completed on that sink (as long as the total stays below `2^32`, the
range of the `u32` address counter); consequently, for two completed
writes A before B, `B.addr ≥ A.addr + A.len`. -/
theorem c3_addr_is_sum_of_previous :
    (∀ ops : List (List Nat), sumLens ops < 2 ^ 32 →
      (∀ i, i < ops.length →
        ((runByteVec [] ops).2)[i]? = some (sumLens (ops.take i))) ∧
      (∀ i j bsA aA aB, i < j → j < ops.length → ops[i]? = some bsA →
        ((runByteVec [] ops).2)[i]? = some aA →
        ((runByteVec [] ops).2)[j]? = some aB →
        aA + bsA.length ≤ aB)) ∧
    (∀ (cap : Nat) (ops : List FileOp), sumSizes ops < 2 ^ 32 →
      (∀ i, i < ops.length →
        ((runFileSink (FileSink.new cap) ops).2)[i]? =
          some (sumSizes (ops.take i))) ∧
      (∀ i j opA aA aB, i < j → j < ops.length → ops[i]? = some opA →
        ((runFileSink (FileSink.new cap) ops).2)[i]? = some aA →
        ((runFileSink (FileSink.new cap) ops).2)[j]? = some aB →
        aA + opA.size ≤ aB)) ∧
    (∀ (ps tag : Nat) (ops : List (List Nat)) wF addrs,
      sumLens ops < 2 ^ 32 →
      runPagedWriter2 ps [] (PagedWriter.new ps tag) ops = some (wF, addrs) →
      (∀ i, i < ops.length → addrs[i]? = some (sumLens (ops.take i))) ∧
      (∀ i j bsA aA aB, i < j → j < ops.length → ops[i]? = some bsA →
        addrs[i]? = some aA → addrs[j]? = some aB →
        aA + bsA.length ≤ aB)) ∧
    (∀ (ps tag : Nat) (ops : List (List Nat)) wF addrs,
      sumLens ops < 2 ^ 32 →
      runPagedWriter1 ps [] (PagedWriter.new ps tag) ops = some (wF, addrs) →
      (∀ i, i < ops.length → addrs[i]? = some (sumLens (ops.take i))) ∧
      (∀ i j bsA aA aB, i < j → j < ops.length → ops[i]? = some bsA →
        addrs[i]? = some aA → addrs[j]? = some aB →
        aA + bsA.length ≤ aB)) := by
  refine ⟨?_, ?_, ?_, ?_⟩
  · intro ops hov
    have hf : ∀ i, i < ops.length →
        ((runByteVec [] ops).2)[i]? = some (sumLens (ops.take i)) := by
      intro i hi
      have hform := bv_run_addr_formula ops [] i hi
      have hlt := Nat.lt_of_le_of_lt (sumLens_take_le ops i) hov
      rw [hform]
      congr 1
      simp
      omega
    refine ⟨hf, ?_⟩
    intro i j bsA aA aB hij hj hbs hA hB
    rw [hf i (by omega)] at hA
    rw [hf j hj] at hB
    injection hA with hA
    injection hB with hB
    subst hA; subst hB
    calc sumLens (ops.take i) + bsA.length
        = sumLens (ops.take (i + 1)) := (sumLens_take_succ ops i bsA hbs).symm
      _ ≤ sumLens (ops.take j) := sumLens_take_mono ops (i + 1) j (by omega)
  · intro cap ops hov
    have hf : ∀ i, i < ops.length →
        ((runFileSink (FileSink.new cap) ops).2)[i]? =
          some (sumSizes (ops.take i)) := by
      intro i hi
      have hform := fs_run_addr_formula ops (FileSink.new cap)
        (by simp [FileSink.new]) i hi
      have hlt := Nat.lt_of_le_of_lt (sumSizes_take_le ops i) hov
      rw [hform]
      congr 1
      simp [FileSink.new]
      omega
    refine ⟨hf, ?_⟩
    intro i j opA aA aB hij hj hop hA hB
    rw [hf i (by omega)] at hA
    rw [hf j hj] at hB
    injection hA with hA
    injection hB with hB
    subst hA; subst hB
    calc sumSizes (ops.take i) + opA.size
        = sumSizes (ops.take (i + 1)) := (sumSizes_take_succ ops i opA hop).symm
      _ ≤ sumSizes (ops.take j) := sumSizes_take_mono ops (i + 1) j (by omega)
  · intro ps tag ops wF addrs hov hrun
    have hf : ∀ i, i < ops.length → addrs[i]? = some (sumLens (ops.take i)) := by
      intro i hi
      have hform := paged2_run_addr_formula ops ps [] (PagedWriter.new ps tag)
        (by simp [PagedWriter.new]) wF addrs hrun i hi
      have hlt := Nat.lt_of_le_of_lt (sumLens_take_le ops i) hov
      rw [hform]
      congr 1
      simp [PagedWriter.new]
      omega
    refine ⟨hf, ?_⟩
    intro i j bsA aA aB hij hj hbs hA hB
    rw [hf i (by omega)] at hA
    rw [hf j hj] at hB
    injection hA with hA
    injection hB with hB
    subst hA; subst hB
    calc sumLens (ops.take i) + bsA.length
        = sumLens (ops.take (i + 1)) := (sumLens_take_succ ops i bsA hbs).symm
      _ ≤ sumLens (ops.take j) := sumLens_take_mono ops (i + 1) j (by omega)
  · intro ps tag ops wF addrs hov hrun
    have hf : ∀ i, i < ops.length → addrs[i]? = some (sumLens (ops.take i)) := by
      intro i hi
      have hform := paged1_run_addr_formula ops ps [] (PagedWriter.new ps tag)
        (by simp [PagedWriter.new]) wF addrs hrun i hi
      have hlt := Nat.lt_of_le_of_lt (sumLens_take_le ops i) hov
      rw [hform]
      congr 1
      simp [PagedWriter.new]
      omega
    refine ⟨hf, ?_⟩
    intro i j bsA aA aB hij hj hbs hA hB
    rw [hf i (by omega)] at hA
    rw [hf j hj] at hB
    injection hA with hA
    injection hB with hB
    subst hA; subst hB
    calc sumLens (ops.take i) + bsA.length
        = sumLens (ops.take (i + 1)) := (sumLens_take_succ ops i bsA hbs).symm
      _ ≤ sumLens (ops.take j) := sumLens_take_mono ops (i + 1) j (by omega)


/-- C3 witness: for the writes `[1,2]` then `[3]` on a fresh
`ByteVecSink`, the second address is the 2 bytes previously written, and
the consequence `B.addr ≥ A.addr + A.len` holds for the pair. -/
theorem c3_addr_is_sum_of_previous_witness :
    ((runByteVec [] [[1, 2], [3]]).2)[1]? =
      some (sumLens ([[1, 2], [3]].take 1)) ∧
    (0 : Nat) + ([1, 2] : List Nat).length ≤ 2 :=
  ⟨((c3_addr_is_sum_of_previous).1 [[1, 2], [3]] (by decide)).1 1 (by decide),
   ((c3_addr_is_sum_of_previous).1 [[1, 2], [3]] (by decide)).2 0 1 [1, 2] 0 2
     (by decide) (by decide) rfl (by decide) (by decide)⟩

/-! ## C7: the string-id partition -/

theorem id_mask_check_iff (id : Nat) :
    id = id &&& STRING_ID_MASK ↔ id ≤ MAX_STRING_ID := by
  have h30 := Nat.and_pow_two_sub_one_eq_mod id 30
  rw [show STRING_ID_MASK = 2 ^ 30 - 1 from rfl, h30,
    show MAX_STRING_ID = 2 ^ 30 - 1 from rfl]
  omega

theorem alloc_success (b : StringTableBuilder) (s : SerializableString)
    (id : Nat) (b2 : StringTableBuilder) (h : b.alloc s = some (id, b2)) :
    id = b.id_counter ∧ id ≤ MAX_STRING_ID ∧
    b2.id_counter = b.id_counter + 1 := by
  unfold StringTableBuilder.alloc at h
  by_cases hc : b.id_counter = b.id_counter &&& STRING_ID_MASK
  · rw [if_pos hc] at h
    simp only [Option.some.injEq, Prod.mk.injEq] at h
    obtain ⟨hid, hb2⟩ := h
    subst hid
    have hle := (id_mask_check_iff b.id_counter).mp hc
    refine ⟨rfl, hle, ?_⟩
    subst hb2
    show (b.id_counter + 1) % 2 ^ 32 = b.id_counter + 1
    have hmax : MAX_STRING_ID = 1073741823 := rfl
    omega
  · rw [if_neg hc] at h
    simp at h

theorem builder_run_invariant (ops : List BuilderOp) :
    ∀ (b0 bF : StringTableBuilder) (allocIds reservedIds : List Nat),
      runBuilder b0 ops = some (bF, allocIds, reservedIds) →
      bF.id_counter = b0.id_counter + allocIds.length ∧
      (∀ id ∈ allocIds, b0.id_counter ≤ id ∧ id ≤ MAX_STRING_ID) ∧
      (∀ id ∈ reservedIds, id ≤ MAX_PRE_RESERVED_STRING_ID) := by
  induction ops with
  | nil =>
    intro b0 bF allocIds reservedIds h
    simp only [runBuilder, Option.some.injEq, Prod.mk.injEq] at h
    obtain ⟨h1, h2, h3⟩ := h
    subst h1; subst h2; subst h3
    simp
  | cons op rest ih =>
    intro b0 bF allocIds reservedIds h
    cases op with
    | opAlloc s =>
      unfold runBuilder at h
      cases halloc : b0.alloc s with
      | none => rw [halloc] at h; simp at h
      | some r =>
        obtain ⟨id, b2⟩ := r
        rw [halloc] at h
        dsimp only at h
        cases hrest : runBuilder b2 rest with
        | none => rw [hrest] at h; simp at h
        | some rr =>
          obtain ⟨b3, aIds, rIds⟩ := rr
          rw [hrest] at h
          simp only [Option.some.injEq, Prod.mk.injEq] at h
          obtain ⟨hb, ha, hr⟩ := h
          subst hb; subst ha; subst hr
          obtain ⟨hid, hmax, hcount⟩ := alloc_success b0 s id b2 halloc
          obtain ⟨ih1, ih2, ih3⟩ := ih b2 _ aIds rIds hrest
          refine ⟨by simp [ih1, hcount]; omega, ?_, ih3⟩
          intro x hx
          rcases List.mem_cons.mp hx with hx | hx
          · subst hx
            exact ⟨by omega, by omega⟩
          · have := ih2 x hx
            constructor
            · omega
            · exact this.2
    | opReserved rid s =>
      unfold runBuilder at h
      unfold StringTableBuilder.alloc_with_reserved_id at h
      by_cases hc : rid ≤ MAX_PRE_RESERVED_STRING_ID
      · rw [if_pos hc] at h
        dsimp only at h
        cases hrest : runBuilder (b0.alloc_unchecked rid s) rest with
        | none => rw [hrest] at h; simp at h
        | some rr =>
          obtain ⟨b3, aIds, rIds⟩ := rr
          rw [hrest] at h
          simp only [Option.some.injEq, Prod.mk.injEq] at h
          obtain ⟨hb, ha, hr⟩ := h
          subst hb; subst ha; subst hr
          obtain ⟨ih1, ih2, ih3⟩ := ih _ _ aIds rIds hrest
          have hcnt : (b0.alloc_unchecked rid s).id_counter = b0.id_counter := rfl
          refine ⟨by rw [ih1, hcnt], ?_, ?_⟩
          · intro x hx
            have := ih2 x hx
            rw [hcnt] at this
            exact this
          · intro x hx
            rcases List.mem_cons.mp hx with hx | hx
            · subst hx; exact hc
            · exact ih3 x hx
      · rw [if_neg hc] at h
        simp at h
    | opMeta s =>
      unfold runBuilder at h
      cases hrest : runBuilder (b0.alloc_metadata s).2 rest with
      | none => rw [hrest] at h; simp at h
      | some rr =>
        obtain ⟨b3, aIds, rIds⟩ := rr
        rw [hrest] at h
        simp only [Option.some.injEq, Prod.mk.injEq] at h
        obtain ⟨hb, ha, hr⟩ := h
        subst hb; subst ha; subst hr
        obtain ⟨ih1, ih2, ih3⟩ := ih _ _ aIds rIds hrest
        have hcnt : ((b0.alloc_metadata s).2).id_counter = b0.id_counter := rfl
        exact ⟨by rw [ih1, hcnt], fun x hx => by
          have := ih2 x hx; rw [hcnt] at this; exact this, ih3⟩

/-- C7: the string-id partition is maintained: `alloc_with_reserved_id`
panics exactly above `MAX_PRE_RESERVED_STRING_ID` and otherwise returns
the supplied id; `alloc_metadata` always uses `METADATA_STRING_ID`;
`alloc` issues exactly its counter value, fails fatally past
`MAX_STRING_ID`, and bumps the counter by one; and on every panic-free
run from a fresh builder the counter equals its `METADATA_STRING_ID + 1`
start plus the number of `alloc` calls (so it only ever increases), every
`alloc`-issued id lies in `(METADATA_STRING_ID, MAX_STRING_ID]`, every
reserved id lies in `[0, MAX_PRE_RESERVED_STRING_ID]`, and the two sets
never collide. -/
theorem c7_id_partition :
    (∀ (b : StringTableBuilder) (id : Nat) (s : SerializableString),
      (MAX_PRE_RESERVED_STRING_ID < id →
        b.alloc_with_reserved_id id s = none) ∧
      (id ≤ MAX_PRE_RESERVED_STRING_ID →
        b.alloc_with_reserved_id id s = some (id, b.alloc_unchecked id s))) ∧
    (∀ (b : StringTableBuilder) (s : SerializableString),
      (b.alloc_metadata s).1 = METADATA_STRING_ID) ∧
    (∀ (b : StringTableBuilder) (s : SerializableString) (id : Nat)
        (b2 : StringTableBuilder), b.alloc s = some (id, b2) →
      id = b.id_counter ∧ id ≤ MAX_STRING_ID ∧
      b2.id_counter = b.id_counter + 1) ∧
    (∀ (ops : List BuilderOp) (bF : StringTableBuilder)
        (allocIds reservedIds : List Nat),
      runBuilder StringTableBuilder.new ops =
        some (bF, allocIds, reservedIds) →
      bF.id_counter = METADATA_STRING_ID + 1 + allocIds.length ∧
      (∀ id ∈ allocIds, METADATA_STRING_ID < id ∧ id ≤ MAX_STRING_ID) ∧
      (∀ id ∈ reservedIds, id ≤ MAX_PRE_RESERVED_STRING_ID) ∧
      (∀ a ∈ allocIds, ∀ r ∈ reservedIds, a ≠ r)) := by
  refine ⟨?_, ?_, ?_, ?_⟩
  · intro b id s
    constructor
    · intro h
      unfold StringTableBuilder.alloc_with_reserved_id
      rw [if_neg (by omega)]
    · intro h
      unfold StringTableBuilder.alloc_with_reserved_id
      rw [if_pos h]
  · intro b s
    rfl
  · intro b s id b2 h
    exact alloc_success b s id b2 h
  · intro ops bF allocIds reservedIds h
    obtain ⟨h1, h2, h3⟩ := builder_run_invariant ops _ bF allocIds reservedIds h
    have hnew : StringTableBuilder.new.id_counter = METADATA_STRING_ID + 1 := rfl
    rw [hnew] at h1 h2
    have hvals : METADATA_STRING_ID = 536870912 ∧
        MAX_PRE_RESERVED_STRING_ID = 536870911 := ⟨rfl, rfl⟩
    refine ⟨h1, ?_, h3, ?_⟩
    · intro id hid
      have := h2 id hid
      omega
    · intro a ha r hr
      have h4 := h2 a ha
      have h5 := h3 r hr
      omega

/-- C7 witness: a reserved id of `0x4000_0000` panics, reserved id 5
succeeds, and the first `alloc` of a fresh builder issues
`0x2000_0001 = METADATA_STRING_ID + 1`. -/
theorem c7_id_partition_witness :
    (StringTableBuilder.new.alloc_with_reserved_id 1073741824
        (.str "z") = none) ∧
    (StringTableBuilder.new.alloc_with_reserved_id 5 (.str "y") =
      some (5, StringTableBuilder.new.alloc_unchecked 5 (.str "y"))) ∧
    (∃ b2, StringTableBuilder.new.alloc (.str "x") = some (536870913, b2) ∧
      (536870913 = StringTableBuilder.new.id_counter ∧
        536870913 ≤ MAX_STRING_ID ∧
        b2.id_counter = StringTableBuilder.new.id_counter + 1)) :=
  ⟨(c7_id_partition.1 StringTableBuilder.new 1073741824 (.str "z")).1
      (by decide),
   (c7_id_partition.1 StringTableBuilder.new 5 (.str "y")).2 (by decide),
   ⟨_, rfl, c7_id_partition.2.2.1 StringTableBuilder.new (.str "x")
      536870913 _ rfl⟩⟩

/-! ## C6: the two paged variants agree -/

theorem pw_step_equiv (ps : Nat) (h5 : PAGE_HEADER_SIZE ≤ ps)
    (queue : List (List Nat)) (w : PagedWriterState) (bytes : List Nat)
    (hw : w.buffer.length = ps)
    (hfit : bytes.length + PAGE_HEADER_SIZE ≤ ps) :
    ∃ a q2 w2, PagedWriter1.write_atomic ps queue w bytes =
        some (a, q2, w2) ∧
      PagedWriter2.write_atomic ps queue.flatten w bytes =
        some (a, q2.flatten, w2) ∧
      w2.buffer.length = ps := by
  have hnot : ¬ (bytes.length > ps - PAGE_HEADER_SIZE) := by omega
  unfold PagedWriter1.write_atomic PagedWriter2.write_atomic
  rw [if_neg hnot, if_pos hfit]
  by_cases hflush : w.buf_pos + bytes.length > w.buffer.length
  · simp only [if_pos hflush]
    refine ⟨_, _, _, rfl, ?_, ?_⟩
    · rw [hw]
      simp [List.flatten_append]
    · simp only []
      rw [setSlice_length]
      · simp
      · simp
        omega
  · simp only [if_neg hflush]
    refine ⟨_, _, _, rfl, rfl, ?_⟩
    simp only []
    rw [setSlice_length]
    · exact hw
    · omega

theorem run_paged_equiv (ops : List (Nat × List Nat)) :
    ∀ (ps : Nat), PAGE_HEADER_SIZE ≤ ps →
    ∀ (queue : List (List Nat)) (ws : List PagedWriterState),
      (∀ w ∈ ws, w.buffer.length = ps) →
      (∀ p ∈ ops, (p.2).length + PAGE_HEADER_SIZE ≤ ps ∧ p.1 < ws.length) →
      ∃ addrs q2 ws2, runPaged1 ps queue ws ops = some (addrs, q2, ws2) ∧
        runPaged2 ps queue.flatten ws ops = some (addrs, q2.flatten, ws2) ∧
        (∀ w ∈ ws2, w.buffer.length = ps) := by
  induction ops with
  | nil =>
    intro ps h5 queue ws hws hops
    exact ⟨[], queue, ws, rfl, rfl, hws⟩
  | cons p rest ih =>
    intro ps h5 queue ws hws hops
    obtain ⟨i, bytes⟩ := p
    obtain ⟨hfit, hidx⟩ := hops (i, bytes) (List.mem_cons_self _ _)
    have hget : ws[i]? = some ws[i] := List.getElem?_eq_getElem hidx
    have hmem : ws[i] ∈ ws := List.getElem_mem hidx
    obtain ⟨a, q2, w2, hv1, hv2, hw2⟩ :=
      pw_step_equiv ps h5 queue ws[i] bytes (hws _ hmem) hfit
    have hws2 : ∀ w ∈ ws.set i w2, w.buffer.length = ps := by
      intro w hw
      rcases List.mem_or_eq_of_mem_set hw with hw | hw
      · exact hws w hw
      · subst hw; exact hw2
    obtain ⟨addrs, q3, ws3, hr1, hr2, hws3⟩ :=
      ih ps h5 q2 (ws.set i w2) hws2 (by
        intro p hp
        obtain ⟨h1, h2⟩ := hops p (List.mem_cons_of_mem _ hp)
        exact ⟨h1, by simpa using h2⟩)
    refine ⟨a :: addrs, q3, ws3, ?_, ?_, hws3⟩
    · unfold runPaged1
      rw [hget]
      dsimp only
      rw [hv1]
      dsimp only
      rw [hr1]
    · unfold runPaged2
      rw [hget]
      dsimp only
      rw [hv2]
      dsimp only
      rw [hr2]

theorem drop_paged_equiv (ws : List PagedWriterState) :
    ∀ queue : List (List Nat),
      (ws.foldl PagedWriter1.dropWriter queue).flatten =
        ws.foldl PagedWriter2.dropWriter queue.flatten := by
  induction ws with
  | nil => intro queue; rfl
  | cons w ws ih =>
    intro queue
    show ((ws.foldl PagedWriter1.dropWriter
      (PagedWriter1.dropWriter queue w))).flatten =
      ws.foldl PagedWriter2.dropWriter
        (PagedWriter2.dropWriter queue.flatten w)
    rw [ih (PagedWriter1.dropWriter queue w)]
    congr 1
    unfold PagedWriter1.dropWriter PagedWriter2.dropWriter
    simp [List.flatten_append]

/-- C6: for the same single-threaded sequence of writes to corresponding
stream writers (each write fitting a page, indices in range), followed by
dropping the writers and then the shared state, the background-thread
paged sink and the synchronous variant produce byte-identical output (and
identical address sequences); the run also succeeds. -/
theorem c6_paged_variants_byte_identical (ps : Nat)
    (h5 : PAGE_HEADER_SIZE ≤ ps) (tags : List Nat)
    (ops : List (Nat × List Nat))
    (hops : ∀ p ∈ ops,
      (p.2).length + PAGE_HEADER_SIZE ≤ ps ∧ p.1 < tags.length) :
    pagedSession1 ps tags ops = pagedSession2 ps tags ops ∧
    (pagedSession1 ps tags ops).isSome := by
  have hinit : ∀ w ∈ tags.map (PagedWriter.new ps), w.buffer.length = ps := by
    intro w hw
    obtain ⟨t, -, rfl⟩ := List.mem_map.mp hw
    simp [PagedWriter.new]
  obtain ⟨addrs, q2, ws2, h1, h2, hws2⟩ :=
    run_paged_equiv ops ps h5 [] (tags.map (PagedWriter.new ps)) hinit
      (by intro p hp; obtain ⟨a, b⟩ := hops p hp; exact ⟨a, by simpa using b⟩)
  unfold pagedSession1 pagedSession2
  rw [h1]
  rw [show (([] : List (List Nat)).flatten) = ([] : List Nat) from rfl] at h2
  rw [h2]
  dsimp only
  refine ⟨?_, rfl⟩
  congr 1
  unfold PagedWriter1.dropShared
  rw [drop_paged_equiv ws2 q2]

/-- C6 witness: two writers with tags 42/43, page size 8, two writes. -/
theorem c6_paged_variants_byte_identical_witness :
    pagedSession1 8 [42, 43] [(0, [1, 2]), (1, [3])] =
      pagedSession2 8 [42, 43] [(0, [1, 2]), (1, [3])] ∧
    (pagedSession1 8 [42, 43] [(0, [1, 2]), (1, [3])]).isSome :=
  c6_paged_variants_byte_identical 8 (by decide) [42, 43]
    [(0, [1, 2]), (1, [3])] (by decide)

end Measureme

namespace Measureme

theorem or_shift (a b k : Nat) (hb : b < 2 ^ k) :
    (a <<< k) ||| b = a * 2 ^ k + b := by
  rw [Nat.shiftLeft_eq, Nat.mul_comm a (2 ^ k), ← Nat.mul_add_lt_is_or hb a]

theorem byte1_facts : ∀ v : Fin 128, v.1 &&& 0x80 = 0 ∧
    v.1 &&& 0xC0 ≠ 0x80 := by decide

theorem byte2_facts : ∀ q : Fin 32,
    (192 : Nat) ||| q.1 = 192 + q.1 ∧
    ¬ ((192 + q.1) &&& 0x80 = 0) ∧
    (192 + q.1) &&& 0xE0 = 0xC0 ∧
    (192 + q.1) &&& 0x1F = q.1 ∧
    (192 + q.1) &&& 0xC0 ≠ 0x80 ∧
    192 + q.1 ≠ 0xFF := by decide

theorem byte3_facts : ∀ q : Fin 16,
    (224 : Nat) ||| q.1 = 224 + q.1 ∧
    ¬ ((224 + q.1) &&& 0x80 = 0) ∧
    (224 + q.1) &&& 0xE0 ≠ 0xC0 ∧
    (224 + q.1) &&& 0xF0 = 0xE0 ∧
    (224 + q.1) &&& 0x1F = q.1 ∧
    (224 + q.1) &&& 0xC0 ≠ 0x80 ∧
    224 + q.1 ≠ 0xFF := by decide

theorem byteCont_facts : ∀ r : Fin 64,
    (128 : Nat) ||| r.1 = 128 + r.1 ∧
    (128 + r.1) &&& 0x3F = r.1 := by decide

set_option maxRecDepth 4096 in
theorem cont_not_leader : ∀ b : Fin 256, b.1 &&& 0xC0 = 0x80 →
    b.1 &&& 0x80 ≠ 0 ∧ b.1 &&& 0xE0 ≠ 0xC0 ∧ b.1 &&& 0xF0 ≠ 0xE0 ∧
    b.1 ≠ 0xFF := by decide

set_option maxRecDepth 4096 in
theorem leader4_facts : ∀ b : Fin 256, b.1 &&& 0xF8 = 0xF0 →
    b.1 ≠ 0xFF ∧ b.1 &&& 0xC0 ≠ 0x80 ∧ b.1 &&& 0x80 ≠ 0 ∧
    b.1 &&& 0xE0 ≠ 0xC0 ∧ b.1 &&& 0xF0 ≠ 0xE0 := by decide

theorem decode_cons_notUtf8 (b : Nat) (t : List Nat)
    (h1 : b &&& 0x80 ≠ 0) (h2 : b &&& 0xE0 ≠ 0xC0)
    (h3 : b &&& 0xF0 ≠ 0xE0) :
    decode_utf8_char (b :: t) = .notUtf8 := by
  unfold decode_utf8_char
  simp only [List.getElem?_cons_zero]
  rw [if_neg h1, if_neg h2, if_neg h3]

theorem decode_terminator (t : List Nat) :
    decode_utf8_char (TERMINATOR :: t) = .notUtf8 :=
  decode_cons_notUtf8 _ _ (by decide) (by decide) (by decide)

end Measureme

namespace Measureme

theorem decode_encode (c : Char) (h : c.toNat < 0x10000)
    (rest : List Nat) :
    decode_utf8_char (utf8EncodeChar c ++ rest) =
      .chr c (utf8EncodeChar c).length := by
  have hval : Nat.isValidChar c.toNat := c.valid
  by_cases h1 : c.toNat < 0x80
  · rw [show utf8EncodeChar c = [c.toNat] by
      unfold utf8EncodeChar; rw [if_pos h1]]
    unfold decode_utf8_char
    simp only [List.cons_append, List.nil_append, List.getElem?_cons_zero]
    rw [if_pos (byte1_facts ⟨c.toNat, h1⟩).1]
    unfold mkDecoded
    rw [dif_pos hval, Char.ofNat_toNat]
    rfl
  · by_cases h2 : c.toNat < 0x800
    · have henc : utf8EncodeChar c =
          [0xC0 ||| (c.toNat >>> 6), 0x80 ||| (c.toNat &&& 0x3F)] := by
        unfold utf8EncodeChar; simp only [if_neg h1, if_pos h2]
      have hq : c.toNat >>> 6 = c.toNat / 64 := by
        rw [Nat.shiftRight_eq_div_pow]
      have hqlt : c.toNat / 64 < 32 := by omega
      have hr : c.toNat &&& 0x3F = c.toNat % 64 := by
        have h6 := Nat.and_pow_two_sub_one_eq_mod c.toNat 6
        norm_num at h6
        exact h6
      have hrlt : c.toNat % 64 < 64 := by omega
      have hb0 : (0xC0 : Nat) ||| (c.toNat >>> 6) = 192 + c.toNat / 64 := by
        rw [hq]; exact (byte2_facts ⟨c.toNat / 64, hqlt⟩).1
      have hb1 : (0x80 : Nat) ||| (c.toNat &&& 0x3F) =
          128 + c.toNat % 64 := by
        rw [hr]; exact (byteCont_facts ⟨c.toNat % 64, hrlt⟩).1
      rw [henc, hb0, hb1]
      unfold decode_utf8_char
      simp only [List.cons_append, List.getElem?_cons_zero,
        List.getElem?_cons_succ]
      rw [if_neg (byte2_facts ⟨c.toNat / 64, hqlt⟩).2.1,
        if_pos (byte2_facts ⟨c.toNat / 64, hqlt⟩).2.2.1]
      rw [(byte2_facts ⟨c.toNat / 64, hqlt⟩).2.2.2.1,
        (byteCont_facts ⟨c.toNat % 64, hrlt⟩).2,
        or_shift _ _ 6 (by omega)]
      have hv : c.toNat / 64 * 2 ^ 6 + c.toNat % 64 = c.toNat := by omega
      rw [hv]
      unfold mkDecoded
      rw [dif_pos hval, Char.ofNat_toNat]
      rfl
    · have h3 : c.toNat < 0x10000 := h
      have henc : utf8EncodeChar c =
          [0xE0 ||| (c.toNat >>> 12), 0x80 ||| ((c.toNat >>> 6) &&& 0x3F),
           0x80 ||| (c.toNat &&& 0x3F)] := by
        unfold utf8EncodeChar; simp only [if_neg h1, if_neg h2, if_pos h3]
      have hq2 : c.toNat >>> 12 = c.toNat / 4096 := by
        rw [Nat.shiftRight_eq_div_pow]
      have hq2lt : c.toNat / 4096 < 16 := by omega
      have hq1 : (c.toNat >>> 6) &&& 0x3F = c.toNat / 64 % 64 := by
        rw [Nat.shiftRight_eq_div_pow]
        have h6 := Nat.and_pow_two_sub_one_eq_mod (c.toNat / 2 ^ 6) 6
        norm_num at h6 ⊢
        exact h6
      have hq1lt : c.toNat / 64 % 64 < 64 := by omega
      have hr : c.toNat &&& 0x3F = c.toNat % 64 := by
        have h6 := Nat.and_pow_two_sub_one_eq_mod c.toNat 6
        norm_num at h6
        exact h6
      have hrlt : c.toNat % 64 < 64 := by omega
      have hb0 : (0xE0 : Nat) ||| (c.toNat >>> 12) =
          224 + c.toNat / 4096 := by
        rw [hq2]; exact (byte3_facts ⟨c.toNat / 4096, hq2lt⟩).1
      have hb1 : (0x80 : Nat) ||| ((c.toNat >>> 6) &&& 0x3F) =
          128 + c.toNat / 64 % 64 := by
        rw [hq1]; exact (byteCont_facts ⟨c.toNat / 64 % 64, hq1lt⟩).1
      have hb2 : (0x80 : Nat) ||| (c.toNat &&& 0x3F) =
          128 + c.toNat % 64 := by
        rw [hr]; exact (byteCont_facts ⟨c.toNat % 64, hrlt⟩).1
      rw [henc, hb0, hb1, hb2]
      unfold decode_utf8_char
      simp only [List.cons_append, List.getElem?_cons_zero,
        List.getElem?_cons_succ]
      rw [if_neg (byte3_facts ⟨c.toNat / 4096, hq2lt⟩).2.1,
        if_neg (byte3_facts ⟨c.toNat / 4096, hq2lt⟩).2.2.1,
        if_pos (byte3_facts ⟨c.toNat / 4096, hq2lt⟩).2.2.2.1]
      rw [(byte3_facts ⟨c.toNat / 4096, hq2lt⟩).2.2.2.2.1,
        (byteCont_facts ⟨c.toNat / 64 % 64, hq1lt⟩).2,
        (byteCont_facts ⟨c.toNat % 64, hrlt⟩).2]
      have hshift6 : (c.toNat / 64 % 64) <<< 6 = c.toNat / 64 % 64 * 64 := by
        rw [Nat.shiftLeft_eq]
      have hinner : (c.toNat / 4096) <<< 12 ||| (c.toNat / 64 % 64) <<< 6 =
          c.toNat / 4096 * 4096 + c.toNat / 64 % 64 * 64 := by
        rw [hshift6]
        rw [or_shift _ _ 12 (by omega)]
        omega
      rw [hinner]
      have houter : c.toNat / 4096 * 4096 + c.toNat / 64 % 64 * 64 =
          (c.toNat / 4096 * 64 + c.toNat / 64 % 64) <<< 6 := by
        rw [Nat.shiftLeft_eq]
        ring
      rw [houter, or_shift _ _ 6 (by omega)]
      have hv : (c.toNat / 4096 * 64 + c.toNat / 64 % 64) * 2 ^ 6 +
          c.toNat % 64 = c.toNat := by omega
      rw [hv]
      unfold mkDecoded
      rw [dif_pos hval, Char.ofNat_toNat]
      rfl

end Measureme

namespace Measureme

theorem utf8Str_cons (c : Char) (cs : List Char) :
    utf8Str (c :: cs) = utf8EncodeChar c ++ utf8Str cs := by
  simp [utf8Str]

theorem utf8EncodeChar_length_pos (c : Char) :
    1 ≤ (utf8EncodeChar c).length := by
  unfold utf8EncodeChar
  dsimp only
  split
  · simp
  · split
    · simp
    · split <;> simp

theorem utf8Str_length_ge (cs : List Char) :
    cs.length ≤ (utf8Str cs).length := by
  induction cs with
  | nil => simp [utf8Str]
  | cons c cs ih =>
    rw [utf8Str_cons]
    simp only [List.length_append, List.length_cons]
    have := utf8EncodeChar_length_pos c
    omega

theorem getElem?_of_drop_eq_cons {l : List Nat} {pos : Nat} {x : Nat}
    {xs : List Nat} (h : l.drop pos = x :: xs) : l[pos]? = some x := by
  have hlt : pos < l.length := by
    by_contra hge
    rw [List.drop_eq_nil_of_le (by omega)] at h
    exact List.noConfusion h
  rw [List.drop_eq_getElem_cons hlt] at h
  injection h with h1 h2
  rw [List.getElem?_eq_getElem hlt, h1]

theorem drop_shift {data l tail : List Nat} {pos : Nat}
    (h : data.drop pos = l ++ tail) :
    data.drop (pos + l.length) = tail := by
  rw [← List.drop_drop, h, List.drop_left]

theorem utf8_loop_run (cs : List Char) :
    ∀ (data : List Nat) (fuel pos : Nat) (acc : List Char)
      (tail : List Nat),
      (∀ c ∈ cs, c.toNat < 0x10000) →
      data.drop pos = utf8Str cs ++ tail →
      decode_utf8_char tail = .notUtf8 →
      cs.length + 1 ≤ fuel →
      utf8_loop data fuel pos acc =
        .next (pos + (utf8Str cs).length) (acc ++ cs) := by
  induction cs with
  | nil =>
    intro data fuel pos acc tail hsmall hdrop hdec hfuel
    obtain ⟨f, rfl⟩ : ∃ f, fuel = f + 1 :=
      ⟨fuel - 1, by omega⟩
    unfold utf8_loop
    simp only [utf8Str, List.map_nil, List.flatten_nil, List.nil_append] at hdrop ⊢
    rw [hdrop, hdec]
    simp
  | cons c cs ih =>
    intro data fuel pos acc tail hsmall hdrop hdec hfuel
    obtain ⟨f, rfl⟩ : ∃ f, fuel = f + 1 :=
      ⟨fuel - 1, by omega⟩
    rw [utf8Str_cons, List.append_assoc] at hdrop
    unfold utf8_loop
    rw [hdrop, decode_encode c (hsmall c (List.mem_cons_self _ _)) _]
    dsimp only
    have hdrop2 : data.drop (pos + (utf8EncodeChar c).length) =
        utf8Str cs ++ tail := drop_shift hdrop
    rw [ih data f (pos + (utf8EncodeChar c).length) (acc ++ [c]) tail
      (fun x hx => hsmall x (List.mem_cons_of_mem _ hx)) hdrop2 hdec
      (by simpa using hfuel)]
    rw [utf8Str_cons]
    simp only [List.length_append, List.append_assoc, List.singleton_append]
    congr 1
    omega

end Measureme

namespace Measureme

theorem LoopRes.push_push_loop (r : LoopRes) (a b : List Char) :
    (r.push b).push a = r.push (a ++ b) := by
  cases r <;> simp [LoopRes.push]

theorem WalkRes.push_push_walk (r : WalkRes) (a b : List Char) :
    (r.push b).push a = r.push (a ++ b) := by
  cases r <;> simp [WalkRes.push]

theorem LoopRes.push_next (a : List Char) (pos : Nat) (out : List Char) :
    (LoopRes.next pos out).push a = .next pos (a ++ out) := rfl

theorem WalkRes.push_ok (a out : List Char) :
    (WalkRes.ok out).push a = .ok (a ++ out) := rfl

theorem utf8_loop_push (data : List Nat) :
    ∀ (fuel pos : Nat) (acc : List Char),
      utf8_loop data fuel pos acc = (utf8_loop data fuel pos []).push acc := by
  intro fuel
  induction fuel with
  | zero => intro pos acc; rfl
  | succ f ih =>
    intro pos acc
    unfold utf8_loop
    cases hdec : decode_utf8_char (data.drop pos) with
    | chr c len =>
      dsimp only
      rw [ih (pos + len) (acc ++ [c]), ih (pos + len) ([] ++ [c])]
      rw [LoopRes.push_push_loop]
      simp
    | notUtf8 => simp [LoopRes.push]
    | panicked => rfl

theorem write_to_string_push (data : List Nat) (index : List (Nat × Nat)) :
    ∀ (fuel pos : Nat) (acc : List Char),
      write_to_string data index fuel pos acc =
        (write_to_string data index fuel pos []).push acc := by
  intro fuel
  induction fuel with
  | zero => intro pos acc; rfl
  | succ f ih =>
    intro pos acc
    unfold write_to_string
    cases hbyte : data[pos]? with
    | none => rfl
    | some byte =>
      dsimp only
      by_cases hterm : byte = TERMINATOR
      · simp only [if_pos hterm]
        simp [WalkRes.push]
      · simp only [if_neg hterm]
        by_cases hcont : byte &&& UTF8_CONTINUATION_MASK =
            UTF8_CONTINUATION_BYTE
        · simp only [if_pos hcont]
          cases hread : readU32LE data pos with
          | none => rfl
          | some id =>
            dsimp only
            cases hlook : lookupId index id with
            | none => rfl
            | some addr =>
              dsimp only
              rw [ih addr acc]
              cases hrec : write_to_string data index f addr [] with
              | ok out =>
                rw [WalkRes.push_ok]
                dsimp only
                rw [ih (pos + 4) (acc ++ out), ih (pos + 4) out]
                rw [WalkRes.push_push_walk]
              | panicked => rfl
              | fuelOut => rfl
        · simp only [if_neg hcont]
          rw [utf8_loop_push data (data.length + 1) pos acc]
          cases hloop : utf8_loop data (data.length + 1) pos [] with
          | next p2 out =>
            rw [LoopRes.push_next]
            dsimp only
            rw [ih p2 (acc ++ out), ih p2 out]
            rw [WalkRes.push_push_walk]
          | panicked => rfl
          | fuelOut => rfl

theorem write_to_string_mono (data : List Nat) (index : List (Nat × Nat)) :
    ∀ (fuel fuel2 pos : Nat) (acc : List Char), fuel ≤ fuel2 →
      write_to_string data index fuel pos acc ≠ .fuelOut →
      write_to_string data index fuel2 pos acc =
        write_to_string data index fuel pos acc := by
  intro fuel
  induction fuel with
  | zero =>
    intro fuel2 pos acc hle hne
    exact absurd rfl hne
  | succ f ih =>
    intro fuel2 pos acc hle hne
    obtain ⟨f2, rfl⟩ : ∃ f2, fuel2 = f2 + 1 := ⟨fuel2 - 1, by omega⟩
    have hle2 : f ≤ f2 := by omega
    unfold write_to_string at hne ⊢
    cases hbyte : data[pos]? with
    | none => rfl
    | some byte =>
      rw [hbyte] at hne
      dsimp only at hne ⊢
      by_cases hterm : byte = TERMINATOR
      · simp only [if_pos hterm]
      · simp only [if_neg hterm] at hne ⊢
        by_cases hcont : byte &&& UTF8_CONTINUATION_MASK =
            UTF8_CONTINUATION_BYTE
        · simp only [if_pos hcont] at hne ⊢
          cases hread : readU32LE data pos with
          | none => rfl
          | some id =>
            rw [hread] at hne
            dsimp only at hne ⊢
            cases hlook : lookupId index id with
            | none => rfl
            | some addr =>
              rw [hlook] at hne
              dsimp only at hne ⊢
              have hrecne : write_to_string data index f addr acc ≠
                  .fuelOut := by
                intro hx
                rw [hx] at hne
                exact hne rfl
              rw [ih f2 addr acc hle2 hrecne]
              cases hrec : write_to_string data index f addr acc with
              | ok out =>
                rw [hrec] at hne
                dsimp only at hne ⊢
                exact ih f2 (pos + 4) out hle2 hne
              | panicked => rfl
              | fuelOut => exact absurd hrec hrecne
        · simp only [if_neg hcont] at hne ⊢
          cases hloop : utf8_loop data (data.length + 1) pos acc with
          | next p2 out =>
            rw [hloop] at hne
            dsimp only at hne ⊢
            exact ih f2 p2 out hle2 hne
          | panicked => rfl
          | fuelOut => rfl

end Measureme

namespace Measureme

theorem utf8EncodeChar_head (c : Char) (h : c.toNat < 0x10000) :
    ∃ b0 brest, utf8EncodeChar c = b0 :: brest ∧ b0 ≠ TERMINATOR ∧
      b0 &&& UTF8_CONTINUATION_MASK ≠ UTF8_CONTINUATION_BYTE := by
  by_cases h1 : c.toNat < 0x80
  · refine ⟨c.toNat, [], by unfold utf8EncodeChar; simp only [if_pos h1], ?_, ?_⟩
    · show c.toNat ≠ 255
      omega
    · exact (byte1_facts ⟨c.toNat, h1⟩).2
  · by_cases h2 : c.toNat < 0x800
    · have hq : c.toNat >>> 6 = c.toNat / 64 := by
        rw [Nat.shiftRight_eq_div_pow]
      have hqlt : c.toNat / 64 < 32 := by omega
      have hb0 : (0xC0 : Nat) ||| (c.toNat >>> 6) = 192 + c.toNat / 64 := by
        rw [hq]; exact (byte2_facts ⟨c.toNat / 64, hqlt⟩).1
      refine ⟨192 + c.toNat / 64, [0x80 ||| (c.toNat &&& 0x3F)], ?_, ?_, ?_⟩
      · unfold utf8EncodeChar
        simp only [if_neg h1, if_pos h2]
        rw [hb0]
      · exact (byte2_facts ⟨c.toNat / 64, hqlt⟩).2.2.2.2.2
      · exact (byte2_facts ⟨c.toNat / 64, hqlt⟩).2.2.2.2.1
    · have h3 : c.toNat < 0x10000 := h
      have hq2 : c.toNat >>> 12 = c.toNat / 4096 := by
        rw [Nat.shiftRight_eq_div_pow]
      have hq2lt : c.toNat / 4096 < 16 := by omega
      have hb0 : (0xE0 : Nat) ||| (c.toNat >>> 12) = 224 + c.toNat / 4096 := by
        rw [hq2]; exact (byte3_facts ⟨c.toNat / 4096, hq2lt⟩).1
      refine ⟨224 + c.toNat / 4096,
        [0x80 ||| ((c.toNat >>> 6) &&& 0x3F), 0x80 ||| (c.toNat &&& 0x3F)],
        ?_, ?_, ?_⟩
      · unfold utf8EncodeChar
        simp only [if_neg h1, if_neg h2, if_pos h3]
        rw [hb0]
      · exact (byte3_facts ⟨c.toNat / 4096, hq2lt⟩).2.2.2.2.2.2
      · exact (byte3_facts ⟨c.toNat / 4096, hq2lt⟩).2.2.2.2.2.1

theorem walk_char_step (data : List Nat) (index : List (Nat × Nat))
    (c : Char) (cs' : List Char) (fuel pos : Nat) (acc : List Char)
    (tail' : List Nat)
    (hsmall : ∀ x ∈ c :: cs', x.toNat < 0x10000)
    (hdrop : data.drop pos = utf8Str (c :: cs') ++ tail')
    (hdec : decode_utf8_char tail' = .notUtf8) :
    write_to_string data index (fuel + 1) pos acc =
      write_to_string data index fuel
        (pos + (utf8Str (c :: cs')).length) (acc ++ (c :: cs')) := by
  obtain ⟨b0, brest, henc, hne0, hnc0⟩ :=
    utf8EncodeChar_head c (hsmall c (List.mem_cons_self _ _))
  have hdropb : data.drop pos =
      b0 :: (brest ++ (utf8Str cs' ++ tail')) := by
    rw [hdrop, utf8Str_cons, henc]
    simp [List.append_assoc]
  have hb := getElem?_of_drop_eq_cons hdropb
  have hlendrop : (data.drop pos).length = data.length - pos :=
    List.length_drop _ _
  have hlen : (utf8Str (c :: cs')).length + tail'.length =
      (data.drop pos).length := by
    rw [hdrop]; simp
  have hfuel : (c :: cs').length + 1 ≤ data.length + 1 := by
    have := utf8Str_length_ge (c :: cs')
    simp only [List.length_cons] at this ⊢
    omega
  conv_lhs => unfold write_to_string
  rw [hb]
  dsimp only
  rw [if_neg hne0, if_neg hnc0]
  rw [utf8_loop_run (c :: cs') data (data.length + 1) pos acc tail'
    hsmall hdrop hdec hfuel]

theorem walk_entry_chars (data : List Nat) (index : List (Nat × Nat))
    (cs : List Char) (fuel pos : Nat) (acc : List Char) (tail : List Nat)
    (hsmall : ∀ c ∈ cs, c.toNat < 0x10000)
    (hdrop : data.drop pos = utf8Str cs ++ TERMINATOR :: tail) :
    write_to_string data index (fuel + 2) pos acc = .ok (acc ++ cs) := by
  cases cs with
  | nil =>
    simp only [utf8Str, List.map_nil, List.flatten_nil,
      List.nil_append] at hdrop
    have hb := getElem?_of_drop_eq_cons hdrop
    unfold write_to_string
    rw [hb]
    dsimp only
    rw [if_pos rfl]
    simp
  | cons c cs' =>
    rw [show fuel + 2 = (fuel + 1) + 1 from rfl,
      walk_char_step data index c cs' (fuel + 1) pos acc
        (TERMINATOR :: tail) hsmall hdrop (decode_terminator tail)]
    have hdrop2 : data.drop (pos + (utf8Str (c :: cs')).length) =
        TERMINATOR :: tail := drop_shift hdrop
    have hb2 := getElem?_of_drop_eq_cons hdrop2
    unfold write_to_string
    rw [hb2]
    dsimp only
    rw [if_pos rfl]

end Measureme

namespace Measureme

theorem readU32LE_le4 {data t : List Nat} {p id : Nat}
    (hdrop : data.drop p = le4 id ++ t) (hid : id < 2 ^ 32) :
    readU32LE data p = some id := by
  have h0 : data.drop p = id % 256 :: (le4 id).tail ++ t := by
    rw [hdrop]; rfl
  have hb0 := getElem?_of_drop_eq_cons (by rw [hdrop]; rfl :
    data.drop p = id % 256 :: (id / 256 % 256 :: id / 65536 % 256 ::
      id / 16777216 % 256 :: t))
  have hd1 : data.drop (p + 1) = id / 256 % 256 :: id / 65536 % 256 ::
      id / 16777216 % 256 :: t := by
    have := drop_shift (l := [id % 256]) (by rw [hdrop]; rfl)
    simpa using this
  have hb1 := getElem?_of_drop_eq_cons hd1
  have hd2 : data.drop (p + 2) = id / 65536 % 256 ::
      id / 16777216 % 256 :: t := by
    have := drop_shift (l := [id % 256, id / 256 % 256]) (by rw [hdrop]; rfl)
    simpa [Nat.add_assoc] using this
  have hb2 := getElem?_of_drop_eq_cons hd2
  have hd3 : data.drop (p + 3) = id / 16777216 % 256 :: t := by
    have := drop_shift (l := [id % 256, id / 256 % 256, id / 65536 % 256])
      (by rw [hdrop]; rfl)
    simpa [Nat.add_assoc] using this
  have hb3 := getElem?_of_drop_eq_cons hd3
  unfold readU32LE
  rw [hb0, hb1, hb2, hb3]
  dsimp only
  congr 1
  omega

theorem walk_ref_step (data : List Nat) (index : List (Nat × Nat))
    (id addr fuel pos : Nat) (acc : List Char) (t : List Nat)
    (hdrop : data.drop pos = le4 id ++ t) (hid : id < 2 ^ 32)
    (hcont : (id % 256) &&& UTF8_CONTINUATION_MASK = UTF8_CONTINUATION_BYTE)
    (hlook : lookupId index id = some addr) :
    write_to_string data index (fuel + 1) pos acc =
      match write_to_string data index fuel addr acc with
      | .ok acc2 => write_to_string data index fuel (pos + 4) acc2
      | .panicked => .panicked
      | .fuelOut => .fuelOut := by
  have hb : data[pos]? = some (id % 256) :=
    getElem?_of_drop_eq_cons (by rw [hdrop]; rfl :
      data.drop pos = id % 256 :: (id / 256 % 256 :: id / 65536 % 256 ::
        id / 16777216 % 256 :: t))
  have hne : id % 256 ≠ TERMINATOR := by
    intro heq
    rw [heq] at hcont
    exact absurd hcont (by decide)
  conv_lhs => unfold write_to_string
  rw [hb]
  dsimp only
  rw [if_neg hne, if_pos hcont, readU32LE_le4 hdrop hid]
  dsimp only
  rw [hlook]

theorem items_decomp (items : List EntryItem) :
    items = (charRun items).map EntryItem.chVal ++ afterRun items := by
  induction items with
  | nil => rfl
  | cons it rest ih =>
    cases it with
    | chVal c =>
      show EntryItem.chVal c :: rest = _
      rw [show charRun (EntryItem.chVal c :: rest) = c :: charRun rest
        from rfl]
      rw [show afterRun (EntryItem.chVal c :: rest) = afterRun rest
        from rfl]
      simpa using ih
    | refId id => rfl

theorem charRun_small (items : List EntryItem) (data : List Nat)
    (index : List (Nat × Nat)) (hok : ∀ it ∈ items, ItemOk data index it) :
    ∀ c ∈ charRun items, c.toNat < 0x10000 := by
  induction items with
  | nil => intro c hc; simp [charRun] at hc
  | cons it rest ih =>
    cases it with
    | chVal c0 =>
      intro c hc
      rw [show charRun (EntryItem.chVal c0 :: rest) = c0 :: charRun rest
        from rfl] at hc
      rcases List.mem_cons.mp hc with rfl | hc
      · exact hok (.chVal c) (List.mem_cons_self _ _)
      · exact ih (fun it hit => hok it (List.mem_cons_of_mem _ hit)) c hc
    | refId id =>
      intro c hc
      simp [charRun] at hc

theorem afterRun_ok (items : List EntryItem) (data : List Nat)
    (index : List (Nat × Nat)) (hok : ∀ it ∈ items, ItemOk data index it) :
    ∀ it ∈ afterRun items, ItemOk data index it := by
  induction items with
  | nil => intro it hit; simp [afterRun] at hit
  | cons x rest ih =>
    cases x with
    | chVal c =>
      intro it hit
      rw [show afterRun (EntryItem.chVal c :: rest) = afterRun rest
        from rfl] at hit
      exact ih (fun y hy => hok y (List.mem_cons_of_mem _ hy)) it hit
    | refId id => exact hok

theorem afterRun_shape (items : List EntryItem) :
    afterRun items = [] ∨
      ∃ id rest, afterRun items = EntryItem.refId id :: rest := by
  induction items with
  | nil => left; rfl
  | cons x rest ih =>
    cases x with
    | chVal c => exact ih
    | refId id => right; exact ⟨id, rest, rfl⟩

theorem entryBytes_append (xs ys : List EntryItem) :
    entryBytes (xs ++ ys) = entryBytes xs ++ entryBytes ys := by
  simp [entryBytes]

theorem entryBytes_chVal (cs : List Char) :
    entryBytes (cs.map EntryItem.chVal) = utf8Str cs := by
  induction cs with
  | nil => rfl
  | cons c cs ih =>
    simp only [List.map_cons]
    show EntryItem.bytes (.chVal c) ++ entryBytes (cs.map EntryItem.chVal) =
      utf8Str (c :: cs)
    rw [ih, utf8Str_cons]
    rfl

end Measureme

namespace Measureme

theorem walk_resolves (data : List Nat) (index : List (Nat × Nat)) :
    ∀ (n : Nat) (items : List EntryItem), items.length ≤ n →
      (∀ it ∈ items, ItemOk data index it) →
      ∀ (pos : Nat) (tail : List Nat),
        data.drop pos = entryBytes items ++ TERMINATOR :: tail →
        ∃ fuel out, write_to_string data index fuel pos [] = .ok out := by
  intro n
  induction n with
  | zero =>
    intro items hlen hok pos tail hdrop
    have hnil : items = [] := List.length_eq_zero.mp (by omega)
    subst hnil
    refine ⟨2, [], ?_⟩
    have := walk_entry_chars data index [] 0 pos [] tail (by simp)
      (by simpa [entryBytes] using hdrop)
    simpa using this
  | succ n ih =>
    intro items hlen hok pos tail hdrop
    rcases afterRun_shape items with hsh | ⟨id, rest, hsh⟩
    · have hdecomp := items_decomp items
      rw [hsh, List.append_nil] at hdecomp
      refine ⟨2, charRun items, ?_⟩
      have hsmall := charRun_small items data index hok
      have hdropc : data.drop pos =
          utf8Str (charRun items) ++ TERMINATOR :: tail := by
        rw [hdrop]
        conv_lhs => rw [hdecomp]
        rw [entryBytes_chVal]
      have := walk_entry_chars data index (charRun items) 0 pos [] tail
        hsmall hdropc
      simpa using this
    · have hdecomp := items_decomp items
      rw [hsh] at hdecomp
      have hrefmem : EntryItem.refId id ∈ items := by
        conv_lhs => rw [hdecomp]
        exact List.mem_append_right _ (List.mem_cons_self _ _)
      obtain ⟨hid, hcont, addr, hlook, fr, δ, hfr⟩ := hok _ hrefmem
      have hbytes : entryBytes items =
          utf8Str (charRun items) ++
            (le4 id ++ entryBytes rest) := by
        conv_lhs => rw [hdecomp]
        rw [entryBytes_append, entryBytes_chVal]
        congr 1
      have hdrop1 : data.drop pos = utf8Str (charRun items) ++
          (le4 id ++ (entryBytes rest ++ TERMINATOR :: tail)) := by
        rw [hdrop, hbytes]
        simp [List.append_assoc]
      have hdropRef : data.drop (pos + (utf8Str (charRun items)).length) =
          le4 id ++ (entryBytes rest ++ TERMINATOR :: tail) :=
        drop_shift hdrop1
      have hdropRest : data.drop
          (pos + (utf8Str (charRun items)).length + 4) =
          entryBytes rest ++ TERMINATOR :: tail := by
        have := drop_shift (l := le4 id) hdropRef
        simpa using this
      have hrestlen : rest.length ≤ n := by
        have := congrArg List.length hdecomp
        simp at this
        omega
      have hrestok : ∀ it ∈ rest, ItemOk data index it := by
        intro it hit
        refine hok it ?_
        conv_lhs => rw [hdecomp]  
        exact List.mem_append_right _ (List.mem_cons_of_mem _ hit)
      obtain ⟨f2, out2, hf2⟩ := ih rest hrestlen hrestok
        (pos + (utf8Str (charRun items)).length + 4) tail hdropRest
      -- lift both resolutions to a common fuel
      have hfrne : write_to_string data index fr addr [] ≠ .fuelOut := by
        rw [hfr]; simp
      have hf2ne : write_to_string data index f2
          (pos + (utf8Str (charRun items)).length + 4) [] ≠ .fuelOut := by
        rw [hf2]; simp
      have hfrF : write_to_string data index (max fr f2) addr [] = .ok δ := by
        rw [write_to_string_mono data index fr (max fr f2) addr []
          (Nat.le_max_left _ _) hfrne, hfr]
      have hf2F : write_to_string data index (max fr f2)
          (pos + (utf8Str (charRun items)).length + 4) [] = .ok out2 := by
        rw [write_to_string_mono data index f2 (max fr f2) _ []
          (Nat.le_max_right _ _) hf2ne, hf2]
      -- one outer step handles the reference
      have hrefstep : write_to_string data index (max fr f2 + 1)
          (pos + (utf8Str (charRun items)).length) (charRun items) =
          .ok ((charRun items ++ δ) ++ out2) := by
        rw [walk_ref_step data index id addr (max fr f2)
          (pos + (utf8Str (charRun items)).length) (charRun items)
          (entryBytes rest ++ TERMINATOR :: tail) hdropRef hid hcont hlook]
        rw [write_to_string_push data index (max fr f2) addr (charRun items),
          hfrF]
        rw [WalkRes.push_ok]
        dsimp only
        rw [write_to_string_push data index (max fr f2) _ (charRun items ++ δ),
          hf2F, WalkRes.push_ok]
      cases hcr : charRun items with
      | nil =>
        refine ⟨max fr f2 + 1, ([] ++ δ) ++ out2, ?_⟩
        rw [hcr] at hrefstep
        simpa using hrefstep
      | cons c cs' =>
        refine ⟨max fr f2 + 2, ((c :: cs') ++ δ) ++ out2, ?_⟩
        have hsmall : ∀ x ∈ c :: cs', x.toNat < 0x10000 := by
          rw [← hcr]
          exact charRun_small items data index hok
        have hdec : decode_utf8_char
            (le4 id ++ (entryBytes rest ++ TERMINATOR :: tail)) =
            .notUtf8 := by
          show decode_utf8_char (id % 256 :: (id / 256 % 256 ::
            id / 65536 % 256 :: id / 16777216 % 256 ::
            (entryBytes rest ++ TERMINATOR :: tail))) = .notUtf8
          have hfacts := cont_not_leader ⟨id % 256, by omega⟩ hcont
          exact decode_cons_notUtf8 _ _ hfacts.1 hfacts.2.1 hfacts.2.2.1
        rw [show max fr f2 + 2 = (max fr f2 + 1) + 1 from rfl]
        rw [walk_char_step data index c cs' (max fr f2 + 1) pos []
          (le4 id ++ (entryBytes rest ++ TERMINATOR :: tail))
          hsmall (by rw [← hcr]; exact hdrop1) hdec]
        rw [hcr] at hrefstep
        simpa using hrefstep

end Measureme

namespace Measureme

/-- C1: for every non-empty string `s` whose characters all lie below
`U+10000` (each encodes in 1–3 UTF-8 bytes), allocating `s` on a fresh
builder via `StringTableBuilder::alloc` and then resolving the returned
`StringId` through `StringTable::new` and `StringRef::to_string` yields
exactly `s` (as its character list). -/
theorem c1_alloc_resolve_roundtrip (s : String) (_h1 : s ≠ "")
    (h2 : ∀ c ∈ s.data, c.toNat < 0x10000) :
    ∃ id b table,
      StringTableBuilder.new.alloc (.str s) = some (id, b) ∧
      StringTable.new b.data_sink b.index_sink = some (.ok table) ∧
      StringRef.to_string table.string_data table.index id 2 =
        .ok s.data := by
  refine ⟨536870913,
    { data_sink := write_file_header FILE_MAGIC_STRINGTABLE_DATA ++
        (utf8Str s.data ++ [TERMINATOR])
      index_sink := write_file_header FILE_MAGIC_STRINGTABLE_INDEX ++
        (le4 536870913 ++ le4 8)
      id_counter := 536870914 },
    { string_data := write_file_header FILE_MAGIC_STRINGTABLE_DATA ++
        (utf8Str s.data ++ [TERMINATOR])
      index := [(536870913, 8)] },
    ?_, ?_, ?_⟩
  · rfl
  · have hD : read_file_header
        (write_file_header FILE_MAGIC_STRINGTABLE_DATA ++
          (utf8Str s.data ++ [TERMINATOR]))
        FILE_MAGIC_STRINGTABLE_DATA = .ok 7 := by
      show read_file_header
        (77 :: 77 :: 83 :: 68 :: 7 :: 0 :: 0 :: 0 ::
          (utf8Str s.data ++ [TERMINATOR])) [77, 77, 83, 68] = .ok 7
      unfold read_file_header readU32LE
      simp [List.take]
    have hI : read_file_header
        (write_file_header FILE_MAGIC_STRINGTABLE_INDEX ++
          (le4 536870913 ++ le4 8))
        FILE_MAGIC_STRINGTABLE_INDEX = .ok 7 := rfl
    show StringTable.new _ _ = _
    unfold StringTable.new
    rw [hD, hI]
    dsimp only
    norm_num
    rfl
  · show write_to_string
      (write_file_header FILE_MAGIC_STRINGTABLE_DATA ++
        (utf8Str s.data ++ [TERMINATOR]))
      [(536870913, 8)] 2 8 [] = .ok s.data
    have hdrop : (write_file_header FILE_MAGIC_STRINGTABLE_DATA ++
        (utf8Str s.data ++ [TERMINATOR])).drop 8 =
        utf8Str s.data ++ TERMINATOR :: [] := rfl
    have := walk_entry_chars
      (write_file_header FILE_MAGIC_STRINGTABLE_DATA ++
        (utf8Str s.data ++ [TERMINATOR]))
      [(536870913, 8)] s.data 0 8 [] [] h2 hdrop
    simpa using this

/-- C1 witness: the round trip at the concrete string `"a€"`. -/
theorem c1_alloc_resolve_roundtrip_witness :
    ∃ id b table,
      StringTableBuilder.new.alloc (.str "a€") = some (id, b) ∧
      StringTable.new b.data_sink b.index_sink = some (.ok table) ∧
      StringRef.to_string table.string_data table.index id 2 =
        .ok "a€".data :=
  c1_alloc_resolve_roundtrip "a€" (by decide) (by decide)

end Measureme

namespace Measureme

theorem getElem?_pos_lt {data : List Nat} {pos fb : Nat}
    (hb : data[pos]? = some fb) : pos < data.length := by
  by_contra h
  push_neg at h
  rw [List.getElem?_eq_none h] at hb
  exact absurd hb (by simp)

theorem drop_eq_cons_of_getElem? {data : List Nat} {pos fb : Nat}
    (hb : data[pos]? = some fb) :
    data.drop pos = fb :: data.drop (pos + 1) := by
  have hlt : pos < data.length := getElem?_pos_lt hb
  have hfb : data[pos] = fb := by
    have := List.getElem?_eq_getElem hlt
    rw [hb] at this
    exact (Option.some.injEq _ _).mp this.symm
  rw [List.drop_eq_getElem_cons hlt, hfb]

theorem walk_stuck_at (data : List Nat) (index : List (Nat × Nat))
    (pos fb : Nat) (hb : data[pos]? = some fb) (hfb : fb < 256)
    (hlead : fb &&& 0xF8 = 0xF0) :
    ∀ fuel acc, write_to_string data index fuel pos acc = .fuelOut := by
  have hfacts := leader4_facts ⟨fb, hfb⟩ hlead
  have hdropc : data.drop pos = fb :: data.drop (pos + 1) :=
    drop_eq_cons_of_getElem? hb
  have hdec : decode_utf8_char (data.drop pos) = .notUtf8 := by
    rw [hdropc]
    exact decode_cons_notUtf8 _ _ hfacts.2.2.1 hfacts.2.2.2.1 hfacts.2.2.2.2
  intro fuel
  induction fuel with
  | zero => intro acc; rfl
  | succ f ih =>
    intro acc
    have hloop : utf8_loop data (data.length + 1) pos acc = .next pos acc := by
      unfold utf8_loop
      rw [hdec]
    unfold write_to_string
    rw [hb]
    dsimp only
    rw [if_neg (show ¬ fb = TERMINATOR from hfacts.1),
      if_neg (show ¬ fb &&& UTF8_CONTINUATION_MASK = UTF8_CONTINUATION_BYTE
        from hfacts.2.1), hloop]
    exact ih acc

end Measureme

namespace Measureme

/-- C9: `decode_utf8_char` returns `None` for every byte slice whose
first byte has high bits `0b11110` (a 4-byte UTF-8 leader,
`fb &&& 0xF8 = 0xF0`), and `StringRef::write_to_string` never advances
its position past such a byte — for every fuel the walk of an entry whose
inline prefix ends at such a leader is stuck (`fuelOut`). In contrast,
resolution terminates (returns `ok`) for every entry whose pre-terminator
bytes consist only of 1–3-byte UTF-8 sequences and resolvable 4-byte
references. -/
theorem c9_four_byte_leader_nontermination
    (data : List Nat) (index : List (Nat × Nat)) (pos : Nat)
    (cs : List Char) (fb : Nat) (rest : List Nat)
    (hsmall : ∀ c ∈ cs, c.toNat < 0x10000)
    (hdrop : data.drop pos = utf8Str cs ++ fb :: rest)
    (hfb : fb < 256) (hlead : fb &&& 0xF8 = 0xF0) :
    (∀ bs : List Nat, decode_utf8_char (fb :: bs) = .notUtf8) ∧
    (∀ fuel acc, write_to_string data index fuel pos acc = .fuelOut) ∧
    (∀ (items : List EntryItem) (p : Nat) (tail : List Nat),
      (∀ it ∈ items, ItemOk data index it) →
      data.drop p = entryBytes items ++ TERMINATOR :: tail →
      ∃ fuel out, write_to_string data index fuel p [] = .ok out) := by
  have hfacts := leader4_facts ⟨fb, hfb⟩ hlead
  refine ⟨?_, ?_, ?_⟩
  · intro bs
    exact decode_cons_notUtf8 _ _ hfacts.2.2.1 hfacts.2.2.2.1 hfacts.2.2.2.2
  · cases cs with
    | nil =>
      simp only [utf8Str, List.map_nil, List.flatten_nil,
        List.nil_append] at hdrop
      exact walk_stuck_at data index pos fb
        (getElem?_of_drop_eq_cons hdrop) hfb hlead
    | cons c cs' =>
      have hdec : decode_utf8_char (fb :: rest) = .notUtf8 :=
        decode_cons_notUtf8 _ _ hfacts.2.2.1 hfacts.2.2.2.1 hfacts.2.2.2.2
      have hdrop2 : data.drop (pos + (utf8Str (c :: cs')).length) =
          fb :: rest := drop_shift hdrop
      have hstuck := walk_stuck_at data index
        (pos + (utf8Str (c :: cs')).length) fb
        (getElem?_of_drop_eq_cons hdrop2) hfb hlead
      intro fuel acc
      cases fuel with
      | zero => rfl
      | succ f =>
        rw [walk_char_step data index c cs' f pos acc (fb :: rest)
          hsmall hdrop hdec]
        exact hstuck f (acc ++ (c :: cs'))
  · intro items p tail hok hdropE
    exact walk_resolves data index items.length items (le_refl _) hok p
      tail hdropE

/-- C9 witness: the entry `"a"` followed by the 4-byte leader `0xF0` of
`U+10348` — the walk is stuck at every fuel. -/
theorem c9_four_byte_leader_nontermination_witness :
    (∀ c ∈ ['a'], c.toNat < 0x10000) ∧
    (([97, 240, 144, 128, 128, 255] : List Nat).drop 0 =
      utf8Str ['a'] ++ 240 :: [144, 128, 128, 255]) ∧
    ((∀ bs : List Nat, decode_utf8_char (240 :: bs) = .notUtf8) ∧
     (∀ fuel acc, write_to_string [97, 240, 144, 128, 128, 255] [] fuel 0 acc =
        .fuelOut) ∧
     (∀ (items : List EntryItem) (p : Nat) (tail : List Nat),
       (∀ it ∈ items, ItemOk [97, 240, 144, 128, 128, 255] [] it) →
       ([97, 240, 144, 128, 128, 255] : List Nat).drop p =
          entryBytes items ++ TERMINATOR :: tail →
       ∃ fuel out,
          write_to_string [97, 240, 144, 128, 128, 255] [] fuel p [] =
            .ok out)) :=
  ⟨by decide, by rfl,
    c9_four_byte_leader_nontermination [97, 240, 144, 128, 128, 255] [] 0
      ['a'] 240 [144, 128, 128, 255] (by decide) (by rfl) (by decide)
      (by decide)⟩

end Measureme
